import Mathlib

/-!
# Verification of the PYLLR core algorithms

A shallow embedding of the PYLLR repository's core numeric code
(`pyllr/pav_rocch.py`, `pyllr/bayes_error_rate.py`, `pyllr/cllr.py`,
`pyllr/utils.py`) together with proofs of the specified invariants.

Scores are modelled as rationals (every IEEE float is a rational, and the
combinatorial algorithms only use ordering and exact arithmetic on them);
quantities produced by `exp`/`log`/`softplus`/`sigmoid` are modelled as reals.
-/

set_option maxHeartbeats 1000000

namespace PYLLR

/-- A trial: a classifier score paired with its label (`true` = target = label 1). -/
abbrev Trial := ℚ × Bool

/-- Number of target trials (label 1) in a list of trials. -/
def targ (B : List Trial) : ℕ := B.countP (fun x => x.2)

/-- The sort key of `np.lexsort((-labels, scores))` in `PAV.__init__`:
primary key score ascending; at tied scores the secondary key `-labels`
ascending puts label-1 trials first. -/
def trialLe (a b : Trial) : Bool := decide (a.1 < b.1) || (decide (a.1 = b.1) && (!b.2 || a.2))

/-- `scores[ii]`, `labels[ii]` of `PAV.__init__`: the trials in sorted order. -/
def sortTrials (ts : List Trial) : List Trial := ts.mergeSort trialLe

/-- One step of the pool-adjacent-violators stack (the algorithm implemented by
sklearn's `_inplace_contiguous_isotonic_regression` with unit weights, whose
fitted value on each pooled block is the block's label mean, followed by the
`np.unique` grouping of equal adjacent fitted values in `PAV.__init__`):
push block `b` to the right of the stack head, pooling while the head block's
mean is ≥ the new block's mean, so that the remaining block means are strictly
increasing from stack bottom to top.  The mean comparison
mean `c` ≥ mean `b` is written in cross-multiplied integer form
`targ b * |c| ≤ targ c * |b|`. -/
def pavPush : List (List Trial) → List Trial → List (List Trial)
  | [], b => [b]
  | c :: s, b =>
      if targ b * c.length ≤ targ c * b.length then pavPush s (c ++ b)
      else b :: c :: s

/-- The PAV stack after processing all trials in sorted order
(stack head = right-most block). -/
def pavStack (l : List Trial) : List (List Trial) :=
  l.foldl (fun s x => pavPush s [x]) []

/-- The PAV blocks of a trial set, in left-to-right (score-ascending) order. -/
def pavBlocks (ts : List Trial) : List (List Trial) :=
  (pavStack (sortTrials ts)).reverse

/-- `self.T = labels.sum()` in `PAV.__init__`. -/
def pavT (ts : List Trial) : ℕ := targ ts

/-- `self.N = len(labels) - self.T` in `PAV.__init__`. -/
def pavN (ts : List Trial) : ℕ := ts.length - targ ts

/-- The fitted posterior of a PAV block: the mean of its 0/1 labels. -/
def blockP (B : List Trial) : ℚ := (targ B : ℚ) / B.length

/-- `self.p` of `PAV.__init__`: the distinct fitted values, in increasing order. -/
def pavP (ts : List Trial) : List ℚ := (pavBlocks ts).map blockP

/-- `self.counts` of `PAV.__init__`. -/
def pavCounts (ts : List Trial) : List ℕ := (pavBlocks ts).map List.length

/-- `np.rint(counts * p)` for one block: the recovered integer target count. -/
def blockTargets (B : List Trial) : ℤ := round ((B.length : ℚ) * blockP B)

/-- `self.targets = np.rint(counts * p).astype(int)` of `PAV.__init__`. -/
def pavTargets (ts : List Trial) : List ℤ := (pavBlocks ts).map blockTargets

/-- `self.nontars = counts - self.targets` of `PAV.__init__`. -/
def pavNontars (ts : List Trial) : List ℤ :=
  List.zipWith (fun (c : ℕ) (t : ℤ) => (c : ℤ) - t) (pavCounts ts) (pavTargets ts)

/-- Stack ordering invariant: along the stack (head = right-most block) the
block means strictly decrease, i.e. the left neighbour `b` of `a` has
mean `a` > mean `b`, in cross-multiplied form. -/
def meanDec (a b : List Trial) : Prop := targ b * a.length < targ a * b.length

/-- Block prefix invariant: every prefix of a PAV block has label mean ≥ the
block's mean (cross-multiplied form). -/
def Pref (B : List Trial) : Prop :=
  ∀ P S, B = P ++ S → targ B * P.length ≤ targ P * B.length

lemma targ_append (P S : List Trial) : targ (P ++ S) = targ P + targ S :=
  List.countP_append _ _ _

/-- Every suffix of a block satisfying `Pref` has mean ≤ the block mean. -/
lemma suff_of_pref {B : List Trial} (h : Pref B) :
    ∀ P S, B = P ++ S → targ S * B.length ≤ targ B * S.length := by
  intro P S hPS
  have hp := h P S hPS
  have hT : targ B = targ P + targ S := by rw [hPS]; exact targ_append P S
  have hL : B.length = P.length + S.length := by rw [hPS]; exact List.length_append _ _
  nlinarith [hp, hT, hL]

lemma pref_nil : Pref [] := by
  intro P S hPS
  have : P = [] := by
    cases P with
    | nil => rfl
    | cons a l => simp at hPS
  simp [this, targ]

lemma pref_singleton (x : Trial) : Pref [x] := by
  intro P S hPS
  cases P with
  | nil => simp [targ]
  | cons a l =>
    cases l with
    | nil =>
      simp only [List.cons_append, List.nil_append, List.cons.injEq] at hPS
      have hS : S = [] := by
        have := hPS.2
        cases S with
        | nil => rfl
        | cons b m => simp at this
      subst hS
      simp [← hPS.1, targ, List.countP_cons]
    | cons b m => simp at hPS

lemma nat_le_cancel {a b n : ℕ} (hn : 0 < n) (h : a * n ≤ b * n) : a ≤ b :=
  Nat.le_of_mul_le_mul_right h hn

/-- Pooling two adjacent blocks whose means violate monotonicity preserves the
prefix invariant. -/
lemma pref_merge {c b : List Trial} (hc : Pref c) (hb : Pref b)
    (hcne : c ≠ []) (hbne : b ≠ [])
    (hm : targ b * c.length ≤ targ c * b.length) : Pref (c ++ b) := by
  intro P S hPS
  have hmc : 0 < c.length := List.length_pos.mpr hcne
  have hmb : 0 < b.length := List.length_pos.mpr hbne
  rcases List.append_eq_append_iff.mp hPS with ⟨P2, hP, hb2⟩ | ⟨R, hcR, hSR⟩
  · -- P = c ++ P2 and b = P2 ++ S : the cut falls inside b
    have hps : targ S * P2.length ≤ targ P2 * S.length := by
      have h1 := hb P2 S hb2
      have h2 : targ b = targ P2 + targ S := by rw [hb2]; exact targ_append _ _
      have h3 : b.length = P2.length + S.length := by rw [hb2]; exact List.length_append _ _
      nlinarith [h1, h2, h3]
    have key2 : targ S * c.length ≤ targ c * S.length := by
      apply nat_le_cancel hmb
      have e1 : targ S * P2.length * c.length ≤ targ P2 * S.length * c.length :=
        Nat.mul_le_mul_right _ hps
      have e2 : targ b * c.length * S.length ≤ targ c * b.length * S.length :=
        Nat.mul_le_mul_right _ hm
      have h2 : targ b = targ P2 + targ S := by rw [hb2]; exact targ_append _ _
      have h3 : b.length = P2.length + S.length := by rw [hb2]; exact List.length_append _ _
      rw [h2, h3] at e2
      rw [h3]
      nlinarith [e1, e2]
    subst hP
    have g2 : targ (c ++ b) = targ c + targ P2 + targ S := by
      rw [targ_append, hb2, targ_append]; ring
    have g3 : (c ++ b).length = c.length + P2.length + S.length := by
      rw [List.length_append, hb2, List.length_append]; ring
    have g4 : targ (c ++ P2) = targ c + targ P2 := targ_append _ _
    have g5 : (c ++ P2).length = c.length + P2.length := List.length_append _ _
    rw [g2, g3, g4, g5]
    nlinarith [key2, hps]
  · -- c = P ++ R and S = R ++ b : the cut falls inside c
    have f1 : targ c * P.length ≤ targ P * c.length := hc P R hcR
    have key : targ b * P.length ≤ targ P * b.length := by
      apply nat_le_cancel hmc
      have e1 : targ b * c.length * P.length ≤ targ c * b.length * P.length :=
        Nat.mul_le_mul_right _ hm
      have e2 : targ c * P.length * b.length ≤ targ P * c.length * b.length :=
        Nat.mul_le_mul_right _ f1
      nlinarith [e1, e2]
    have g2 : targ (c ++ b) = targ c + targ b := targ_append _ _
    have g3 : (c ++ b).length = c.length + b.length := List.length_append _ _
    rw [g2, g3]
    nlinarith [f1, key]

lemma pavPush_pref {s : List (List Trial)} {b : List Trial}
    (hs : ∀ B ∈ s, B ≠ [] ∧ Pref B) (hb : b ≠ [] ∧ Pref b) :
    ∀ B ∈ pavPush s b, B ≠ [] ∧ Pref B := by
  induction s generalizing b with
  | nil => simpa [pavPush] using hb
  | cons c s IH =>
    have hc := hs c (List.mem_cons_self _ _)
    by_cases h : targ b * c.length ≤ targ c * b.length
    · rw [pavPush, if_pos h]
      exact IH (fun B hB => hs B (List.mem_cons_of_mem _ hB))
        ⟨by simp [hc.1], pref_merge hc.2 hb.2 hc.1 hb.1 h⟩
    · rw [pavPush, if_neg h]
      intro B hB
      rcases List.mem_cons.mp hB with rfl | hB'
      · exact hb
      · exact hs B hB'

lemma pavPush_chain {s : List (List Trial)} {b : List Trial}
    (hs : List.Chain' meanDec s) : List.Chain' meanDec (pavPush s b) := by
  induction s generalizing b with
  | nil => simp [pavPush]
  | cons c s IH =>
    by_cases h : targ b * c.length ≤ targ c * b.length
    · rw [pavPush, if_pos h]
      exact IH hs.tail
    · rw [pavPush, if_neg h]
      exact List.Chain'.cons (Nat.lt_of_not_le h) hs

lemma pavPush_flatten {s : List (List Trial)} {b : List Trial} :
    (pavPush s b).reverse.flatten = s.reverse.flatten ++ b := by
  induction s generalizing b with
  | nil => simp [pavPush]
  | cons c s IH =>
    by_cases h : targ b * c.length ≤ targ c * b.length
    · rw [pavPush, if_pos h, IH]
      simp
    · rw [pavPush, if_neg h]
      simp

/-- The three PAV stack invariants, plus the fact that reading the stack
bottom-to-top recovers the processed trials. -/
lemma pavStack_ok (l : List Trial) :
    (∀ B ∈ pavStack l, B ≠ [] ∧ Pref B) ∧ List.Chain' meanDec (pavStack l) ∧
      (pavStack l).reverse.flatten = l := by
  suffices h : ∀ (l : List Trial) (s : List (List Trial)),
      (∀ B ∈ s, B ≠ [] ∧ Pref B) → List.Chain' meanDec s →
      (∀ B ∈ List.foldl (fun s x => pavPush s [x]) s l, B ≠ [] ∧ Pref B) ∧
        List.Chain' meanDec (List.foldl (fun s x => pavPush s [x]) s l) ∧
        (List.foldl (fun s x => pavPush s [x]) s l).reverse.flatten =
          s.reverse.flatten ++ l by
    have := h l [] (by simp) (by simp)
    simpa [pavStack] using this
  intro l
  induction l with
  | nil => intro s h1 h2; simpa using ⟨h1, h2⟩
  | cons x l IH =>
    intro s h1 h2
    have hx : ([(x : Trial)] : List Trial) ≠ [] ∧ Pref [x] := ⟨by simp, pref_singleton x⟩
    have step := IH (pavPush s [x]) (pavPush_pref h1 hx) (pavPush_chain h2)
    rw [List.foldl_cons]
    refine ⟨step.1, step.2.1, ?_⟩
    rw [step.2.2, pavPush_flatten]
    simp

lemma pavBlocks_ok (ts : List Trial) :
    (∀ B ∈ pavBlocks ts, B ≠ [] ∧ Pref B) ∧
      List.Chain' (fun a b => meanDec b a) (pavBlocks ts) ∧
      (pavBlocks ts).flatten = sortTrials ts := by
  obtain ⟨h1, h2, h3⟩ := pavStack_ok (sortTrials ts)
  refine ⟨fun B hB => h1 B (List.mem_reverse.mp hB), ?_, h3⟩
  rw [pavBlocks, List.chain'_reverse]
  exact h2

lemma sortTrials_perm (ts : List Trial) : (sortTrials ts).Perm ts :=
  List.mergeSort_perm ts trialLe

lemma targ_sortTrials (ts : List Trial) : targ (sortTrials ts) = targ ts :=
  List.Perm.countP_eq _ (sortTrials_perm ts)

lemma length_sortTrials (ts : List Trial) : (sortTrials ts).length = ts.length :=
  List.Perm.length_eq (sortTrials_perm ts)

lemma targ_flatten (L : List (List Trial)) : targ L.flatten = (L.map targ).sum :=
  List.countP_flatten _ _

/-- `np.rint(counts * p)` recovers the exact integer target count of a block. -/
lemma blockTargets_eq {B : List Trial} (h : B ≠ []) : blockTargets B = (targ B : ℤ) := by
  have hl : (B.length : ℚ) ≠ 0 := by
    exact_mod_cast Nat.pos_iff_ne_zero.mp (List.length_pos.mpr h)
  rw [blockTargets, blockP, mul_comm, div_mul_cancel₀ _ hl]
  exact round_natCast _

lemma zipWith_map_same {α β γ δ : Type} (f : β → γ → δ) (g : α → β) (h : α → γ)
    (l : List α) : List.zipWith f (l.map g) (l.map h) = l.map (fun x => f (g x) (h x)) := by
  induction l with
  | nil => rfl
  | cons a l IH => simp [IH]

lemma nontars_sum_aux (l : List (List Trial)) :
    (List.zipWith (fun (c : ℕ) (t : ℤ) => (c : ℤ) - t) (l.map List.length)
        (l.map (fun B => (targ B : ℤ)))).sum
      = ((l.map List.length).sum : ℤ) - ((l.map targ).sum : ℤ) := by
  induction l with
  | nil => simp
  | cons B L IH =>
    simp only [List.map_cons, List.zipWith_cons_cons, List.sum_cons, IH]
    push_cast
    ring

/-- C1: for a valid trial set the fitted block posteriors are strictly
increasing, and the recovered integer target / nontarget counts sum to `T`
and `N` respectively. -/
theorem C1_pav_model_invariants (ts : List Trial)
    (hT : 0 < pavT ts) (hN : 0 < pavN ts) :
    List.Chain' (· < ·) (pavP ts) ∧
      (pavTargets ts).sum = (pavT ts : ℤ) ∧
      (pavNontars ts).sum = (pavN ts : ℤ) := by
  obtain ⟨hblocks, hchain, hflat⟩ := pavBlocks_ok ts
  have htargsum : ((pavBlocks ts).map targ).sum = pavT ts := by
    rw [← targ_flatten, hflat, targ_sortTrials, pavT]
  have hlensum : ((pavBlocks ts).map List.length).sum = ts.length := by
    rw [← List.length_flatten, hflat, length_sortTrials]
  have htargets_eq : pavTargets ts = (pavBlocks ts).map (fun B => (targ B : ℤ)) := by
    rw [pavTargets]
    exact List.map_congr_left (fun B hB => blockTargets_eq (hblocks B hB).1)
  refine ⟨?_, ?_, ?_⟩
  · -- strict increase of the fitted posteriors
    rw [pavP, List.chain'_map]
    refine List.Chain'.imp ?_ hchain
    intro a b hab
    have hab' : targ a * b.length < targ b * a.length := hab
    have hpos : 0 < targ b * a.length := lt_of_le_of_lt (Nat.zero_le _) hab'
    have ha : 0 < a.length := by
      by_contra hc
      have h0 : a.length = 0 := Nat.eq_zero_of_not_pos hc
      rw [h0, Nat.mul_zero] at hpos
      exact lt_irrefl 0 hpos
    have htb : 0 < targ b := by
      by_contra hc
      have : targ b = 0 := Nat.eq_zero_of_not_pos hc
      rw [this] at hpos
      simp at hpos
    have hb : 0 < b.length := lt_of_lt_of_le htb (List.countP_le_length _)
    rw [blockP, blockP, div_lt_div_iff₀ (by exact_mod_cast ha) (by exact_mod_cast hb)]
    exact_mod_cast hab'
  · -- target counts sum to T
    rw [htargets_eq]
    have : ((pavBlocks ts).map (fun B => (targ B : ℤ))).sum
        = (((pavBlocks ts).map targ).sum : ℤ) := by
      induction pavBlocks ts with
      | nil => simp
      | cons B L IH => simp [IH]
    rw [this, htargsum]
  · -- nontarget counts sum to N
    rw [pavNontars, pavCounts, htargets_eq, nontars_sum_aux, htargsum, hlensum, pavN, pavT]
    have hle : targ ts ≤ ts.length := List.countP_le_length _
    omega

/-- Witness for C1 on the two-trial set {(0, nontarget), (1, target)}. -/
theorem C1_witness :
    (0 < pavT [((0 : ℚ), false), ((1 : ℚ), true)] ∧
      0 < pavN [((0 : ℚ), false), ((1 : ℚ), true)]) ∧
    (List.Chain' (· < ·) (pavP [((0 : ℚ), false), ((1 : ℚ), true)]) ∧
      (pavTargets [((0 : ℚ), false), ((1 : ℚ), true)]).sum
          = (pavT [((0 : ℚ), false), ((1 : ℚ), true)] : ℤ) ∧
      (pavNontars [((0 : ℚ), false), ((1 : ℚ), true)]).sum
          = (pavN [((0 : ℚ), false), ((1 : ℚ), true)] : ℤ)) :=
  ⟨⟨by decide, by decide⟩,
    C1_pav_model_invariants [((0 : ℚ), false), ((1 : ℚ), true)] (by decide) (by decide)⟩

/-! ## `pyllr/utils.py`: merge-and-relabel utilities -/

/-- `tarnon_2_scoreslabels` of `pyllr/utils.py`: concatenate the tar scores and
the non scores, with an integer label vector that is 1 on the tar entries and
0 on the non entries. -/
def tarnon_2_scoreslabels (tar non : List ℚ) : List ℚ × List ℕ :=
  (tar ++ non, List.replicate tar.length 1 ++ List.replicate non.length 0)

/-- `scoreslabels_2_tarnon` of `pyllr/utils.py`: split the scores by
`labels == 1` (everything else counts as non). -/
def scoreslabels_2_tarnon (scores : List ℚ) (labels : List ℕ) : List ℚ × List ℚ :=
  (((scores.zip labels).filter (fun x => x.2 == 1)).map Prod.fst,
   ((scores.zip labels).filter (fun x => !(x.2 == 1))).map Prod.fst)

lemma zip_replicate_self {α : Type} (l : List α) (c : ℕ) :
    l.zip (List.replicate l.length c) = l.map (fun x => (x, c)) := by
  induction l with
  | nil => rfl
  | cons a l IH => simp [List.replicate_succ, IH]

/-- C10: the merge-and-relabel utilities are mutually inverse, and the labels
produced are 1 on the first `len tar` entries and 0 on the rest. -/
theorem C10_tarnon_roundtrip (tar non : List ℚ) :
    scoreslabels_2_tarnon (tarnon_2_scoreslabels tar non).1
        (tarnon_2_scoreslabels tar non).2 = (tar, non) ∧
      (∀ i (h : i < tar.length),
        ((tarnon_2_scoreslabels tar non).2.get ⟨i, by
          simp [tarnon_2_scoreslabels]; omega⟩) = 1) ∧
      (∀ i (h : tar.length ≤ i ∧ i < tar.length + non.length),
        ((tarnon_2_scoreslabels tar non).2.get ⟨i, by
          simp [tarnon_2_scoreslabels]; omega⟩) = 0) := by
  refine ⟨?_, ?_, ?_⟩
  · have hz : (tar ++ non).zip
        (List.replicate tar.length 1 ++ List.replicate non.length 0)
        = tar.map (fun x => (x, 1)) ++ non.map (fun x => (x, 0)) := by
      rw [List.zip_append (by simp), zip_replicate_self, zip_replicate_self]
    simp only [scoreslabels_2_tarnon, tarnon_2_scoreslabels, hz, List.filter_append,
      List.map_append]
    congr 1
    · have h1 : (tar.map (fun x => (x, 1))).filter (fun x => x.2 == 1)
          = tar.map (fun x => (x, 1)) := by
        apply List.filter_eq_self.mpr
        intro a ha
        rcases List.mem_map.mp ha with ⟨x, _, rfl⟩
        rfl
      have h2 : (non.map (fun x => (x, 0))).filter (fun x => x.2 == 1) = [] := by
        apply List.filter_eq_nil_iff.mpr
        intro a ha
        rcases List.mem_map.mp ha with ⟨x, _, rfl⟩
        simp
      simp [h1, h2, Function.comp_def]
    · have h1 : (tar.map (fun x => (x, 1))).filter (fun x => !(x.2 == 1)) = [] := by
        apply List.filter_eq_nil_iff.mpr
        intro a ha
        rcases List.mem_map.mp ha with ⟨x, _, rfl⟩
        simp
      have h2 : (non.map (fun x => (x, 0))).filter (fun x => !(x.2 == 1))
          = non.map (fun x => (x, 0)) := by
        apply List.filter_eq_self.mpr
        intro a ha
        rcases List.mem_map.mp ha with ⟨x, _, rfl⟩
        rfl
      simp [h1, h2, Function.comp_def]
  · intro i h
    simp [tarnon_2_scoreslabels, List.getElem_append_left, h,
      List.getElem_replicate]
  · intro i h
    simp only [tarnon_2_scoreslabels, List.get_eq_getElem]
    rw [List.getElem_append_right (by simpa using h.1)]
    simp

/-! ## Error handling of `PAV.__init__` -/

/-- The failure modes the spec names for the core algorithms. -/
inductive PyErr
  | InsufficientDataError
  | UnsortedOperatingPointsError
  deriving DecidableEq, Repr

/-- `PAV.__init__` with its `assert T > 0 < N` guard (the failure the spec
names `InsufficientDataError`), returning the fields stored on the object. -/
def pavInit (ts : List Trial) :
    Except PyErr (List ℚ × List ℕ × List ℤ × List ℤ) :=
  if 0 < pavT ts ∧ 0 < pavN ts then
    .ok (pavP ts, pavCounts ts, pavTargets ts, pavNontars ts)
  else .error .InsufficientDataError

/-- C3: the PAV constructor fails with `InsufficientDataError` exactly on the
inputs with fewer than one example of some class or fewer than two trials, and
succeeds whenever both classes are present. -/
theorem C3_pav_insufficient_data (ts : List Trial) :
    (pavInit ts = .error .InsufficientDataError ↔
        pavT ts = 0 ∨ pavN ts = 0 ∨ ts.length < 2) ∧
      (0 < pavT ts → 0 < pavN ts → ∃ r, pavInit ts = .ok r) := by
  have hle : targ ts ≤ ts.length := List.countP_le_length _
  constructor
  · by_cases h : 0 < pavT ts ∧ 0 < pavN ts
    · rw [pavInit, if_pos h]
      simp only [reduceCtorEq, false_iff]
      push_neg
      refine ⟨by omega, by omega, ?_⟩
      have h1 : 0 < pavT ts := h.1
      have h2 : 0 < pavN ts := h.2
      rw [pavT] at h1
      rw [pavN] at h2
      omega
    · rw [pavInit, if_neg h]
      simp only [true_iff]
      rw [pavT, pavN] at h
      push_neg at h
      rw [pavT, pavN]
      omega
  · intro h1 h2
    exact ⟨_, by rw [pavInit, if_pos ⟨h1, h2⟩]⟩

/-- Witness for C3 on the two-trial set {(0, nontarget), (1, target)}. -/
theorem C3_witness :
    0 < pavT [((0 : ℚ), false), ((1 : ℚ), true)] ∧
      0 < pavN [((0 : ℚ), false), ((1 : ℚ), true)] ∧
      ∃ r, pavInit [((0 : ℚ), false), ((1 : ℚ), true)] = .ok r :=
  ⟨by decide, by decide,
    (C3_pav_insufficient_data [((0 : ℚ), false), ((1 : ℚ), true)]).2
      (by decide) (by decide)⟩

/-! ## `PAV.rocch`: the ROC convex hull vertices -/

lemma pavTargets_eq (ts : List Trial) :
    pavTargets ts = (pavBlocks ts).map (fun B => (targ B : ℤ)) := by
  rw [pavTargets]
  exact List.map_congr_left (fun B hB => blockTargets_eq ((pavBlocks_ok ts).1 B hB).1)

lemma targsum_blocks (ts : List Trial) :
    ((pavBlocks ts).map targ).sum = pavT ts := by
  rw [← targ_flatten, (pavBlocks_ok ts).2.2, targ_sortTrials, pavT]

lemma lensum_blocks (ts : List Trial) :
    ((pavBlocks ts).map List.length).sum = ts.length := by
  rw [← List.length_flatten, (pavBlocks_ok ts).2.2, length_sortTrials]

lemma pavBlocks_ne_nil {ts : List Trial} (hT : 0 < pavT ts) : pavBlocks ts ≠ [] := by
  intro h
  have h1 : (pavBlocks ts).flatten = sortTrials ts := (pavBlocks_ok ts).2.2
  rw [h] at h1
  have h2 : ts.length = 0 := by
    rw [← length_sortTrials, ← h1]
    rfl
  have := List.countP_le_length (fun x => x.2) (l := ts)
  rw [pavT, targ] at hT
  omega

/-- `np.cumsum` with running total `a`. -/
def cumsumFrom (a : ℚ) : List ℚ → List ℚ
  | [] => []
  | x :: xs => (a + x) :: cumsumFrom (a + x) xs

/-- `np.cumsum`. -/
def cumsum (l : List ℚ) : List ℚ := cumsumFrom 0 l

lemma length_cumsumFrom (a : ℚ) (l : List ℚ) : (cumsumFrom a l).length = l.length := by
  induction l generalizing a with
  | nil => rfl
  | cons x xs IH => simp [cumsumFrom, IH]

lemma length_cumsum (l : List ℚ) : (cumsum l).length = l.length := length_cumsumFrom 0 l

lemma cumsumFrom_getElem? (a : ℚ) (l : List ℚ) (k : ℕ) (h : k < l.length) :
    (cumsumFrom a l)[k]? = some (a + (l.take (k + 1)).sum) := by
  induction l generalizing a k with
  | nil => simp at h
  | cons x xs IH =>
    cases k with
    | zero => simp [cumsumFrom]
    | succ j =>
      have hj : j < xs.length := by simpa using h
      simp only [cumsumFrom, List.getElem?_cons_succ, List.take_succ_cons, List.sum_cons]
      rw [IH (a + x) j hj]
      congr 1
      ring

lemma cumsum_getElem? (l : List ℚ) (k : ℕ) (h : k < l.length) :
    (cumsum l)[k]? = some ((l.take (k + 1)).sum) := by
  rw [cumsum, cumsumFrom_getElem? 0 l k h, zero_add]

/-- Number of PAV bins (`self.nbins`). -/
def nbins (ts : List Trial) : ℕ := (pavBlocks ts).length

/-- First row of `PAV.rocch`:
`pmiss[0] = 0; np.cumsum(self.targets, out=pmiss[1:]); pmiss /= self.T`. -/
def rocchPmiss (ts : List Trial) : List ℚ :=
  (((0 : ℚ)) :: cumsum ((pavTargets ts).map (fun (t : ℤ) => (t : ℚ)))).map
    (fun x => x / (pavT ts : ℚ))

/-- Second row of `PAV.rocch`:
`pfa[0] = 0; np.cumsum(self.nontars, out=pfa[1:]); pfa -= self.N; pfa /= -self.N`. -/
def rocchPfa (ts : List Trial) : List ℚ :=
  (((0 : ℚ)) :: cumsum ((pavNontars ts).map (fun (t : ℤ) => (t : ℚ)))).map
    (fun x => (x - (pavN ts : ℚ)) / (-(pavN ts : ℚ)))

lemma targets_cast_eq (ts : List Trial) :
    (pavTargets ts).map (fun (t : ℤ) => (t : ℚ))
      = (pavBlocks ts).map (fun B => (targ B : ℚ)) := by
  rw [pavTargets_eq, List.map_map]
  exact List.map_congr_left (fun B _ => by push_cast; rfl)

lemma pavNontars_eq (ts : List Trial) :
    pavNontars ts = (pavBlocks ts).map (fun B => (B.length : ℤ) - (targ B : ℤ)) := by
  rw [pavNontars, pavCounts, pavTargets_eq, zipWith_map_same]

lemma nontars_cast_eq (ts : List Trial) :
    (pavNontars ts).map (fun (t : ℤ) => (t : ℚ))
      = (pavBlocks ts).map (fun B => (B.length : ℚ) - (targ B : ℚ)) := by
  rw [pavNontars_eq, List.map_map]
  exact List.map_congr_left (fun B _ => by simp)

lemma length_rocchPmiss (ts : List Trial) :
    (rocchPmiss ts).length = nbins ts + 1 := by
  simp [rocchPmiss, length_cumsum, nbins, pavTargets]

lemma length_rocchPfa (ts : List Trial) :
    (rocchPfa ts).length = nbins ts + 1 := by
  simp [rocchPfa, length_cumsum, nbins, pavNontars_eq]

lemma rocchPmiss_getElem? (ts : List Trial) (k : ℕ) (h : k < nbins ts + 1) :
    (rocchPmiss ts)[k]?
      = some ((((pavBlocks ts).take k).map (fun B => (targ B : ℚ))).sum
          / (pavT ts : ℚ)) := by
  rw [rocchPmiss, List.getElem?_map]
  cases k with
  | zero => simp
  | succ j =>
    have hj : j < ((pavTargets ts).map (fun (t : ℤ) => (t : ℚ))).length := by
      rw [targets_cast_eq, List.length_map]
      rw [nbins] at h
      omega
    rw [List.getElem?_cons_succ, cumsum_getElem? _ j hj, targets_cast_eq,
      ← List.map_take]
    rfl

lemma rocchPfa_getElem? (ts : List Trial) (k : ℕ) (h : k < nbins ts + 1) :
    (rocchPfa ts)[k]?
      = some (((((pavBlocks ts).take k).map
            (fun B => (B.length : ℚ) - (targ B : ℚ))).sum - (pavN ts : ℚ))
          / (-(pavN ts : ℚ))) := by
  rw [rocchPfa, List.getElem?_map]
  cases k with
  | zero => simp
  | succ j =>
    have hj : j < ((pavNontars ts).map (fun (t : ℤ) => (t : ℚ))).length := by
      rw [nontars_cast_eq, List.length_map]
      rw [nbins] at h
      omega
    rw [List.getElem?_cons_succ, cumsum_getElem? _ j hj, nontars_cast_eq,
      ← List.map_take]
    rfl

lemma getElem?_to_get {l : List ℚ} {k : ℕ} {v : ℚ} (h : k < l.length)
    (he : l[k]? = some v) : l.get ⟨k, h⟩ = v := by
  rw [List.get_eq_getElem]
  rw [List.getElem?_eq_getElem h] at he
  exact Option.some_inj.mp he

lemma cast_targ_sum (L : List (List Trial)) :
    (L.map (fun B => (targ B : ℚ))).sum = (((L.map targ).sum : ℕ) : ℚ) := by
  induction L with
  | nil => simp
  | cons B M IH => simp [IH]

lemma cast_nontar_sum (L : List (List Trial)) :
    (L.map (fun B => (B.length : ℚ) - (targ B : ℚ))).sum
      = (((L.map List.length).sum : ℕ) : ℚ) - (((L.map targ).sum : ℕ) : ℚ) := by
  induction L with
  | nil => simp
  | cons B M IH =>
    simp only [List.map_cons, List.sum_cons, IH]
    push_cast
    ring

lemma take_sum_succ_targ (L : List (List Trial)) (k : ℕ) (h : k < L.length) :
    ((L.take (k + 1)).map (fun B => (targ B : ℚ))).sum
      = ((L.take k).map (fun B => (targ B : ℚ))).sum + (targ (L.get ⟨k, h⟩) : ℚ) := by
  rw [List.map_take, List.map_take,
    List.sum_take_succ (L.map (fun B => (targ B : ℚ))) k (by simpa using h)]
  congr 1
  rw [List.getElem_map]
  rfl

lemma take_sum_succ_nontar (L : List (List Trial)) (k : ℕ) (h : k < L.length) :
    ((L.take (k + 1)).map (fun B => (B.length : ℚ) - (targ B : ℚ))).sum
      = ((L.take k).map (fun B => (B.length : ℚ) - (targ B : ℚ))).sum
        + (((L.get ⟨k, h⟩).length : ℚ) - (targ (L.get ⟨k, h⟩) : ℚ)) := by
  rw [List.map_take, List.map_take,
    List.sum_take_succ (L.map (fun B => (B.length : ℚ) - (targ B : ℚ))) k
      (by simpa using h)]
  congr 1
  rw [List.getElem_map]
  rfl

lemma convex_alg (T N s t0 t1 m n0 n1 : ℚ) (hT : 0 < T) (hN : 0 < N)
    (key : t0 * n1 ≤ t1 * n0) :
    ((s + t0) / T - s / T) * ((m + n0 - N) / (-N) - (m + n0 + n1 - N) / (-N))
      ≤ ((s + t0 + t1) / T - (s + t0) / T) * ((m - N) / (-N) - (m + n0 - N) / (-N)) := by
  have e1 : (s + t0) / T - s / T = t0 / T := by
    rw [div_sub_div_same]
    congr 1
    ring
  have e2 : (s + t0 + t1) / T - (s + t0) / T = t1 / T := by
    rw [div_sub_div_same]
    congr 1
    ring
  have e3 : (m + n0 - N) / (-N) - (m + n0 + n1 - N) / (-N) = n1 / N := by
    rw [div_sub_div_same]
    have h : m + n0 - N - (m + n0 + n1 - N) = -n1 := by ring
    rw [h, neg_div_neg_eq]
  have e4 : (m - N) / (-N) - (m + n0 - N) / (-N) = n0 / N := by
    rw [div_sub_div_same]
    have h : m - N - (m + n0 - N) = -n0 := by ring
    rw [h, neg_div_neg_eq]
  rw [e1, e2, e3, e4, div_mul_div_comm, div_mul_div_comm]
  exact (div_le_div_iff_of_pos_right (mul_pos hT hN)).mpr key

/-- C2: the ROCCH vertex list has `nbins + 1 ≥ 2` vertices, starts at
`(Pmiss, Pfa) = (0, 1)`, ends at `(1, 0)`, has non-decreasing `Pmiss`,
non-increasing `Pfa`, and is convex in the `(Pfa, Pmiss)` plane
(consecutive segments turn in one direction, stated as a cross-product
inequality). -/
theorem C2_rocch_shape (ts : List Trial) (hT : 0 < pavT ts) (hN : 0 < pavN ts) :
    (rocchPmiss ts).length = nbins ts + 1 ∧
    (rocchPfa ts).length = nbins ts + 1 ∧
    2 ≤ (rocchPmiss ts).length ∧
    (rocchPmiss ts)[0]? = some 0 ∧
    (rocchPfa ts)[0]? = some 1 ∧
    (rocchPmiss ts)[nbins ts]? = some 1 ∧
    (rocchPfa ts)[nbins ts]? = some 0 ∧
    List.Chain' (· ≤ ·) (rocchPmiss ts) ∧
    List.Chain' (fun a b => b ≤ a) (rocchPfa ts) ∧
    ∀ k (h2 : k + 2 ≤ nbins ts),
      ((rocchPmiss ts).get ⟨k+1, by rw [length_rocchPmiss]; omega⟩
          - (rocchPmiss ts).get ⟨k, by rw [length_rocchPmiss]; omega⟩) *
        ((rocchPfa ts).get ⟨k+1, by rw [length_rocchPfa]; omega⟩
          - (rocchPfa ts).get ⟨k+2, by rw [length_rocchPfa]; omega⟩)
      ≤ ((rocchPmiss ts).get ⟨k+2, by rw [length_rocchPmiss]; omega⟩
          - (rocchPmiss ts).get ⟨k+1, by rw [length_rocchPmiss]; omega⟩) *
        ((rocchPfa ts).get ⟨k, by rw [length_rocchPfa]; omega⟩
          - (rocchPfa ts).get ⟨k+1, by rw [length_rocchPfa]; omega⟩) := by
  have hTq : (0 : ℚ) < (pavT ts : ℚ) := by exact_mod_cast hT
  have hNq : (0 : ℚ) < (pavN ts : ℚ) := by exact_mod_cast hN
  have hnb : 0 < nbins ts := List.length_pos.mpr (pavBlocks_ne_nil hT)
  have hlensum := lensum_blocks ts
  have htargsum := targsum_blocks ts
  have hNle : targ ts ≤ ts.length := List.countP_le_length _
  -- closed forms for the vertices
  have hpm : ∀ k, k < nbins ts + 1 → ∀ (h : k < (rocchPmiss ts).length),
      (rocchPmiss ts).get ⟨k, h⟩
        = (((pavBlocks ts).take k).map (fun B => (targ B : ℚ))).sum / (pavT ts : ℚ) :=
    fun k hk h => getElem?_to_get h (rocchPmiss_getElem? ts k hk)
  have hpf : ∀ k, k < nbins ts + 1 → ∀ (h : k < (rocchPfa ts).length),
      (rocchPfa ts).get ⟨k, h⟩
        = ((((pavBlocks ts).take k).map
              (fun B => (B.length : ℚ) - (targ B : ℚ))).sum - (pavN ts : ℚ))
            / (-(pavN ts : ℚ)) :=
    fun k hk h => getElem?_to_get h (rocchPfa_getElem? ts k hk)
  refine ⟨length_rocchPmiss ts, length_rocchPfa ts, by rw [length_rocchPmiss]; omega,
    ?_, ?_, ?_, ?_, ?_, ?_, ?_⟩
  · rw [rocchPmiss_getElem? ts 0 (by omega)]
    simp
  · rw [rocchPfa_getElem? ts 0 (by omega)]
    simp only [List.take_zero, List.map_nil, List.sum_nil, zero_sub, Option.some_inj]
    rw [neg_div_neg_eq, div_self (ne_of_gt hNq)]
  · rw [rocchPmiss_getElem? ts (nbins ts) (by omega)]
    have : (pavBlocks ts).take (nbins ts) = pavBlocks ts := by
      rw [nbins]; exact List.take_length _
    rw [this, cast_targ_sum, htargsum, div_self (ne_of_gt hTq)]
  · rw [rocchPfa_getElem? ts (nbins ts) (by omega)]
    have h1 : (pavBlocks ts).take (nbins ts) = pavBlocks ts := by
      rw [nbins]; exact List.take_length _
    rw [h1, cast_nontar_sum, htargsum, hlensum]
    have h2 : ((ts.length : ℚ) - (pavT ts : ℚ)) - (pavN ts : ℚ) = 0 := by
      rw [pavN, pavT]
      rw [pavT] at hT
      push_cast [Nat.cast_sub hNle]
      ring
    rw [h2, zero_div]
  · -- Pmiss is non-decreasing
    rw [List.chain'_iff_get]
    intro i hi
    rw [length_rocchPmiss] at hi
    have hi1 : i < nbins ts := by omega
    rw [hpm i (by omega) _, hpm (i+1) (by omega) _,
      div_le_div_iff_of_pos_right hTq,
      take_sum_succ_targ (pavBlocks ts) i (by rw [← nbins]; omega)]
    have : (0 : ℚ) ≤ (targ ((pavBlocks ts).get ⟨i, by rw [← nbins]; omega⟩) : ℚ) := by
      positivity
    linarith
  · -- Pfa is non-increasing
    rw [List.chain'_iff_get]
    intro i hi
    rw [length_rocchPfa] at hi
    have hi1 : i < nbins ts := by omega
    have hib : i < (pavBlocks ts).length := by rw [← nbins]; omega
    rw [hpf i (by omega) _, hpf (i+1) (by omega) _,
      take_sum_succ_nontar (pavBlocks ts) i hib]
    apply div_le_div_of_nonpos_of_le (by linarith)
    have hle : targ ((pavBlocks ts).get ⟨i, hib⟩)
        ≤ ((pavBlocks ts).get ⟨i, hib⟩).length := List.countP_le_length _
    have : (targ ((pavBlocks ts).get ⟨i, hib⟩) : ℚ)
        ≤ (((pavBlocks ts).get ⟨i, hib⟩).length : ℚ) := by exact_mod_cast hle
    linarith
  · -- convexity in the (Pfa, Pmiss) plane
    intro k h2
    have e0 : k < (pavBlocks ts).length := by rw [← nbins]; omega
    have e1 : k + 1 < (pavBlocks ts).length := by rw [← nbins]; omega
    have hchain := (pavBlocks_ok ts).2.1
    rw [List.chain'_iff_get] at hchain
    have hcg := hchain k (by rw [← nbins]; omega)
    have hkey : (targ ((pavBlocks ts).get ⟨k, e0⟩) : ℚ)
          * ((((pavBlocks ts).get ⟨k+1, e1⟩).length : ℚ)
              - (targ ((pavBlocks ts).get ⟨k+1, e1⟩) : ℚ))
        ≤ (targ ((pavBlocks ts).get ⟨k+1, e1⟩) : ℚ)
          * ((((pavBlocks ts).get ⟨k, e0⟩).length : ℚ)
              - (targ ((pavBlocks ts).get ⟨k, e0⟩) : ℚ)) := by
      have hc : targ ((pavBlocks ts).get ⟨k, e0⟩)
            * ((pavBlocks ts).get ⟨k+1, e1⟩).length
          < targ ((pavBlocks ts).get ⟨k+1, e1⟩)
            * ((pavBlocks ts).get ⟨k, e0⟩).length := by
        have : ((pavBlocks ts).get ⟨k, e0⟩)
            = (pavBlocks ts).get ⟨k, by omega⟩ := rfl
        exact hcg
      have hcq : (targ ((pavBlocks ts).get ⟨k, e0⟩) : ℚ)
            * (((pavBlocks ts).get ⟨k+1, e1⟩).length : ℚ)
          < (targ ((pavBlocks ts).get ⟨k+1, e1⟩) : ℚ)
            * (((pavBlocks ts).get ⟨k, e0⟩).length : ℚ) := by exact_mod_cast hc
      nlinarith [hcq]
    rw [hpm k (by omega) _, hpm (k+1) (by omega) _, hpm (k+2) (by omega) _,
      hpf k (by omega) _, hpf (k+1) (by omega) _, hpf (k+2) (by omega) _,
      take_sum_succ_targ (pavBlocks ts) (k+1) e1,
      take_sum_succ_targ (pavBlocks ts) k e0,
      take_sum_succ_nontar (pavBlocks ts) (k+1) e1,
      take_sum_succ_nontar (pavBlocks ts) k e0]
    exact convex_alg _ _ _ _ _ _ _ _ hTq hNq hkey

/-- Witness for C2 on the two-trial set {(0, nontarget), (1, target)}. -/
theorem C2_witness :
    (0 < pavT [((0 : ℚ), false), ((1 : ℚ), true)] ∧
      0 < pavN [((0 : ℚ), false), ((1 : ℚ), true)]) ∧
    (rocchPmiss [((0 : ℚ), false), ((1 : ℚ), true)])[0]? = some 0 ∧
    (rocchPfa [((0 : ℚ), false), ((1 : ℚ), true)])[0]? = some 1 ∧
    (rocchPmiss [((0 : ℚ), false), ((1 : ℚ), true)])[nbins
        [((0 : ℚ), false), ((1 : ℚ), true)]]? = some 1 ∧
    List.Chain' (· ≤ ·) (rocchPmiss [((0 : ℚ), false), ((1 : ℚ), true)]) := by
  have h := C2_rocch_shape [((0 : ℚ), false), ((1 : ℚ), true)] (by decide) (by decide)
  exact ⟨⟨by decide, by decide⟩, h.2.2.2.1, h.2.2.2.2.1, h.2.2.2.2.2.1, h.2.2.2.2.2.2.2.1⟩

/-! ## `fast_Bayes_error_rate` (`pyllr/bayes_error_rate.py`) -/

/-- `scores[labels==1]`. -/
def tarOf (scores : List ℚ) (labels : List Bool) : List ℚ :=
  ((scores.zip labels).filter (fun x => x.2)).map Prod.fst

/-- `scores[labels==0]`. -/
def nonOf (scores : List ℚ) (labels : List Bool) : List ℚ :=
  ((scores.zip labels).filter (fun x => !x.2)).map Prod.fst

/-- The Boolean form of `(np.diff(plo) >= 0).all()`: adjacent operating points
are non-decreasing. -/
def ascending : List ℚ → Bool
  | [] => true
  | [_] => true
  | x :: y :: r => decide (x ≤ y) && ascending (y :: r)

lemma ascending_iff_chain (l : List ℚ) :
    ascending l = true ↔ List.Chain' (· ≤ ·) l := by
  induction l with
  | nil => simp [ascending]
  | cons x r IH =>
    cases r with
    | nil => simp [ascending]
    | cons y r' =>
      rw [ascending, List.chain'_cons, Bool.and_eq_true, decide_eq_true_iff, IH]

/-- `scipy.stats.rankdata(x, method='ordinal')` at index `j`: the 1-based
position of `x[j]` in the stable sort of `x` (ties broken by original
position). -/
def ordinalRank (v : List ℚ) (j : ℕ) : ℕ :=
  1 + (List.range v.length).countP
        (fun k => decide (v.getD k 0 < v.getD j 0 ∨ (v.getD k 0 = v.getD j 0 ∧ k < j)))

/-- Lines 55-59 of `bayes_error_rate.py`:
`rk = ordinalrank(np.concatenate((thr,tar))); Pmiss = (rk[:D] - Ddownto1) / T`
with `Ddownto1 = np.arange(D,0,-1)`, so entry `i` subtracts `D - i`. -/
def fastPmiss (thr tar : List ℚ) : List ℚ :=
  (List.range thr.length).map (fun i =>
    ((ordinalRank (thr ++ tar) i : ℚ) - ((thr.length - i : ℕ) : ℚ))
      / (tar.length : ℚ))

/-- Lines 61-63 of `bayes_error_rate.py`:
`rk = ordinalrank(np.concatenate((thr,non))); Pfa = (N - rk[:D] + Ddownto1) / N`. -/
def fastPfa (thr non : List ℚ) : List ℚ :=
  (List.range thr.length).map (fun i =>
    (((non.length : ℚ) - (ordinalRank (thr ++ non) i : ℚ))
        + ((thr.length - i : ℕ) : ℚ))
      / (non.length : ℚ))

/-- `scipy.special.expit`. -/
noncomputable def sigmoid (x : ℝ) : ℝ := 1 / (1 + Real.exp (-x))

/-- `fast_Bayes_error_rate(scores, labels, plo, return_der_Pmiss_Pfa=True)`.
The first `assert (np.diff(plo) >= 0).all()` is the failure the spec names
`UnsortedOperatingPointsError`; the second assert is `N + T > 0 < D`.
Returns `(ber, der, Pmiss, Pfa)`. -/
noncomputable def fast_Bayes_error_rate (scores : List ℚ) (labels : List Bool)
    (plo : List ℚ) : Except PyErr (List ℝ × List ℝ × List ℚ × List ℚ) :=
  if ascending plo = false then .error .UnsortedOperatingPointsError
  else
    let thr := plo.map (fun p => -p)
    let tar := tarOf scores labels
    let non := nonOf scores labels
    if ¬ (0 < non.length + tar.length ∧ 0 < plo.length) then
      .error .InsufficientDataError
    else
      let Pmiss := fastPmiss thr tar
      let Pfa := fastPfa thr non
      let ber := (plo.zip (Pmiss.zip Pfa)).map (fun x =>
        sigmoid (x.1 : ℝ) * (x.2.1 : ℝ) + sigmoid (-(x.1 : ℝ)) * (x.2.2 : ℝ))
      let der := plo.map (fun p => min (sigmoid (p : ℝ)) (sigmoid (-(p : ℝ))))
      .ok (ber, der, Pmiss, Pfa)

lemma length_fastPmiss (thr tar : List ℚ) : (fastPmiss thr tar).length = thr.length := by
  simp [fastPmiss]

lemma length_fastPfa (thr non : List ℚ) : (fastPfa thr non).length = thr.length := by
  simp [fastPfa]

/-- C4: the fast evaluator rejects unsorted operating points with
`UnsortedOperatingPointsError` (the check is exactly ascending order), never
re-sorts, and on sorted input the i-th returned error rate is built from the
i-th operating point and the i-th Pmiss/Pfa entries. -/
theorem C4_unsorted_operating_points (scores : List ℚ) (labels : List Bool)
    (plo : List ℚ) :
    (ascending plo = false ↔ ¬ List.Chain' (· ≤ ·) plo) ∧
    (¬ List.Chain' (· ≤ ·) plo →
      fast_Bayes_error_rate scores labels plo = .error .UnsortedOperatingPointsError) ∧
    (List.Chain' (· ≤ ·) plo →
      fast_Bayes_error_rate scores labels plo ≠ .error .UnsortedOperatingPointsError) ∧
    (∀ ber der Pmiss Pfa,
      fast_Bayes_error_rate scores labels plo = .ok (ber, der, Pmiss, Pfa) →
      ber.length = plo.length ∧ Pmiss.length = plo.length ∧ Pfa.length = plo.length ∧
      ∀ i, i < plo.length →
        ∃ p pm pf, plo[i]? = some p ∧ Pmiss[i]? = some pm ∧ Pfa[i]? = some pf ∧
          ber[i]? = some (sigmoid (p : ℝ) * (pm : ℝ) + sigmoid (-(p : ℝ)) * (pf : ℝ))) := by
  have hiff : ascending plo = false ↔ ¬ List.Chain' (· ≤ ·) plo := by
    rw [← ascending_iff_chain]
    simp
  refine ⟨hiff, ?_, ?_, ?_⟩
  · intro h
    rw [fast_Bayes_error_rate, if_pos (hiff.mpr h)]
  · intro h
    have ha : ¬ (ascending plo = false) := fun hf => (hiff.mp hf) h
    rw [fast_Bayes_error_rate, if_neg ha]
    by_cases hg : ¬ (0 < (nonOf scores labels).length + (tarOf scores labels).length
        ∧ 0 < plo.length)
    · rw [if_pos hg]
      simp
    · rw [if_neg hg]
      simp
  · intro ber der Pmiss Pfa h
    by_cases ha : ascending plo = false
    · rw [fast_Bayes_error_rate, if_pos ha] at h
      exact absurd h (by simp)
    · by_cases hg : ¬ (0 < (nonOf scores labels).length + (tarOf scores labels).length
          ∧ 0 < plo.length)
      · rw [fast_Bayes_error_rate, if_neg ha, if_pos hg] at h
        exact absurd h (by simp)
      · rw [fast_Bayes_error_rate, if_neg ha, if_neg hg] at h
        simp only [Except.ok.injEq, Prod.mk.injEq] at h
        obtain ⟨hber, hder, hPmiss, hPfa⟩ := h
        subst hber
        subst hPmiss
        subst hPfa
        have hlm : (fastPmiss (plo.map (fun p => -p)) (tarOf scores labels)).length
            = plo.length := by rw [length_fastPmiss, List.length_map]
        have hlf : (fastPfa (plo.map (fun p => -p)) (nonOf scores labels)).length
            = plo.length := by rw [length_fastPfa, List.length_map]
        have hlz : ((fastPmiss (plo.map (fun p => -p)) (tarOf scores labels)).zip
              (fastPfa (plo.map (fun p => -p)) (nonOf scores labels))).length
            = plo.length := by rw [List.length_zip, hlm, hlf, min_self]
        have hlzz : (plo.zip
              ((fastPmiss (plo.map (fun p => -p)) (tarOf scores labels)).zip
                (fastPfa (plo.map (fun p => -p)) (nonOf scores labels)))).length
            = plo.length := by rw [List.length_zip, hlz, min_self]
        refine ⟨by rw [List.length_map, hlzz], hlm, hlf, ?_⟩
        intro i hi
        have him : i < (fastPmiss (plo.map (fun p => -p)) (tarOf scores labels)).length := by
          rw [hlm]; exact hi
        have hif : i < (fastPfa (plo.map (fun p => -p)) (nonOf scores labels)).length := by
          rw [hlf]; exact hi
        have hib : i < (plo.zip
            ((fastPmiss (plo.map (fun p => -p)) (tarOf scores labels)).zip
              (fastPfa (plo.map (fun p => -p)) (nonOf scores labels)))).length := by
          rw [hlzz]; exact hi
        refine ⟨plo[i], (fastPmiss (plo.map (fun p => -p)) (tarOf scores labels))[i],
          (fastPfa (plo.map (fun p => -p)) (nonOf scores labels))[i],
          List.getElem?_eq_getElem hi, List.getElem?_eq_getElem him,
          List.getElem?_eq_getElem hif, ?_⟩
        rw [List.getElem?_map, List.getElem?_eq_getElem hib, List.getElem_zip,
          List.getElem_zip]
        rfl

/-- Witness for C4: an unsorted pair of operating points is rejected, a sorted
singleton is not. -/
theorem C4_witness :
    fast_Bayes_error_rate [] [] [(1 : ℚ), 0] = .error .UnsortedOperatingPointsError ∧
      fast_Bayes_error_rate [(5 : ℚ)] [true] [(0 : ℚ)]
        ≠ .error .UnsortedOperatingPointsError := by
  constructor
  · exact (C4_unsorted_operating_points [] [] [1, 0]).2.1
      ((C4_unsorted_operating_points [] [] [1, 0]).1.mp (by decide))
  · exact (C4_unsorted_operating_points [5] [true] [0]).2.2.1 (by simp)

/-- C5: the guard `assert N + T > 0 < D` of `fast_Bayes_error_rate` does not
require `T ≥ 1` and `N ≥ 1` separately: the input scores=[5], labels=[0],
plo=[0] has no target scores at all (T = 0, violating `T ≥ 1`), yet the
function accepts it and computes the error rates (`Pmiss` divides by T = 0). -/
theorem C5_fast_guard_accepts_missing_class :
    (fast_Bayes_error_rate [(5 : ℚ)] [false] [(0 : ℚ)]).isOk = true ∧
      (tarOf [(5 : ℚ)] [false]).length = 0 := ⟨rfl, rfl⟩

/-- The count the spec says the joint-sort rank computation recovers: the
number of scores strictly below the threshold. -/
def countBelow (t : ℚ) (l : List ℚ) : ℕ := l.countP (fun s => decide (s < t))

/-- C6 failing input: the operating points plo = [0,0] are tied but ascending
(accepted by the sort check), the thresholds are [0,0], and the target scores
are [-1,1].  The rank-based computation returns Pmiss = [0,1], while the
count of target scores below each threshold gives [1/2, 1/2] — so the rank
shortcut does not equal naive per-threshold counting on tied operating
points. -/
theorem C6_rank_failing_input :
    ascending [0, 0] = true ∧
    fastPmiss [0, 0] [-1, 1] = [0, 1] ∧
    (List.range 2).map (fun i =>
        ((countBelow (([0, 0] : List ℚ).getD i 0) [-1, 1] : ℚ)
          / (([-1, 1] : List ℚ).length : ℚ))) = [1/2, 1/2] ∧
    fastPmiss [0, 0] [-1, 1] ≠ (List.range 2).map (fun i =>
        ((countBelow (([0, 0] : List ℚ).getD i 0) [-1, 1] : ℚ)
          / (([-1, 1] : List ℚ).length : ℚ))) := by
  have e1 : fastPmiss [0, 0] [-1, 1] = [0, 1] := by
    norm_num [fastPmiss, ordinalRank, List.range_succ]
  have e2 : (List.range 2).map (fun i =>
      ((countBelow (([0, 0] : List ℚ).getD i 0) [-1, 1] : ℚ)
        / (([-1, 1] : List ℚ).length : ℚ))) = [1/2, 1/2] := by
    norm_num [countBelow, List.range_succ]
  refine ⟨rfl, e1, e2, ?_⟩
  rw [e1, e2]
  intro hcontra
  simp only [List.cons.injEq] at hcontra
  norm_num at hcontra

/-! ## `ROCCH.Bayes_error_rate` and `ROCCH.EER` -/

/-- One row of the cost matrix `E = PP.T @ self.PmissPfa`: the per-vertex
Bayes cost `ptar * Pmiss_k + pnon * Pfa_k` at one operating point. -/
noncomputable def vertexCosts (pm pf : List ℚ) (plo : ℝ) : List ℝ :=
  (pm.zip pf).map (fun v => sigmoid plo * (v.1 : ℝ) + sigmoid (-plo) * (v.2 : ℝ))

/-- `E.min(axis=1)` for one row (`np.min` of a nonempty vector; 0 is junk for
the empty vector, on which numpy errors out). -/
noncomputable def listMin : List ℝ → ℝ
  | [] => 0
  | [x] => x
  | x :: y :: r => min x (listMin (y :: r))

/-- `np.argmin` for one row: index of the first minimum. -/
noncomputable def listArgmin : List ℝ → ℕ
  | [] => 0
  | [_] => 0
  | x :: y :: r => if x ≤ listMin (y :: r) then 0 else 1 + listArgmin (y :: r)

/-- `ROCCH.Bayes_error_rate` on a scalar operating point (scalar in, scalar
out). -/
noncomputable def Bayes_error_rate_scalar (pm pf : List ℚ) (plo : ℝ) : ℝ :=
  listMin (vertexCosts pm pf plo)

/-- `ROCCH.Bayes_error_rate` on an array of operating points: the row-wise
minimum of the `(m operating points) × (vertices)` cost matrix (array in,
array out). -/
noncomputable def Bayes_error_rate_array (pm pf : List ℚ) (plos : List ℝ) : List ℝ :=
  plos.map (Bayes_error_rate_scalar pm pf)

/-- `ROCCH.Bayes_error_rate` with `return_Pmiss_Pfa=True`: also returns the
argmin vertex's `Pmiss` and `Pfa` per operating point. -/
noncomputable def Bayes_error_rate_full (pm pf : List ℚ) (plos : List ℝ) :
    List ℝ × List ℚ × List ℚ :=
  (Bayes_error_rate_array pm pf plos,
   plos.map (fun p => pm.getD (listArgmin (vertexCosts pm pf p)) 0),
   plos.map (fun p => pf.getD (listArgmin (vertexCosts pm pf p)) 0))

lemma listMin_spec : ∀ (l : List ℝ), l ≠ [] →
    listMin l ∈ l ∧ ∀ x ∈ l, listMin l ≤ x := by
  intro l
  induction l with
  | nil => intro h; exact absurd rfl h
  | cons a r IH =>
    intro _
    cases r with
    | nil =>
      refine ⟨by simp [listMin], ?_⟩
      intro x hx
      rcases List.mem_cons.mp hx with rfl | hx'
      · exact le_refl _
      · simp at hx'
    | cons b r' =>
      obtain ⟨hmem, hle⟩ := IH (by simp)
      constructor
      · rw [listMin]
        rcases le_total a (listMin (b :: r')) with h | h
        · simp [min_eq_left h]
        · rw [min_eq_right h]
          exact List.mem_cons_of_mem _ hmem
      · intro x hx
        rcases List.mem_cons.mp hx with rfl | hx'
        · rw [listMin]
          exact min_le_left _ _
        · rw [listMin]
          exact le_trans (min_le_right _ _) (hle x hx')

lemma length_vertexCosts (pm pf : List ℚ) (plo : ℝ) (hlen : pf.length = pm.length) :
    (vertexCosts pm pf plo).length = pm.length := by
  rw [vertexCosts, List.length_map, List.length_zip, hlen, min_self]

/-- C7: `ROCCH.Bayes_error_rate` computes, per operating point, the minimum
over vertices `k` of `sigmoid(plo)·Pmiss_k + sigmoid(-plo)·Pfa_k`; the scalar
form returns a scalar, the array form returns an array of the same length as
the input (and likewise the optional argmin `Pmiss`, `Pfa` outputs). -/
theorem C7_Bayes_error_rate_min (pm pf : List ℚ) (plos : List ℝ) (plo : ℝ)
    (hne : 0 < pm.length) (hlen : pf.length = pm.length) :
    (∃ k, k < pm.length ∧
        Bayes_error_rate_scalar pm pf plo
          = sigmoid plo * (pm.getD k 0 : ℝ) + sigmoid (-plo) * (pf.getD k 0 : ℝ)) ∧
    (∀ k, k < pm.length →
        Bayes_error_rate_scalar pm pf plo
          ≤ sigmoid plo * (pm.getD k 0 : ℝ) + sigmoid (-plo) * (pf.getD k 0 : ℝ)) ∧
    (Bayes_error_rate_array pm pf plos).length = plos.length ∧
    (∀ i, i < plos.length →
        (Bayes_error_rate_array pm pf plos)[i]?
          = (plos[i]?).map (Bayes_error_rate_scalar pm pf)) ∧
    (Bayes_error_rate_full pm pf plos).2.1.length = plos.length ∧
    (Bayes_error_rate_full pm pf plos).2.2.length = plos.length := by
  have hvne : vertexCosts pm pf plo ≠ [] := by
    intro h
    have := length_vertexCosts pm pf plo hlen
    rw [h] at this
    simp at this
    omega
  obtain ⟨hmem, hle⟩ := listMin_spec (vertexCosts pm pf plo) hvne
  have hlenv := length_vertexCosts pm pf plo hlen
  refine ⟨?_, ?_, by rw [Bayes_error_rate_array, List.length_map], ?_, ?_, ?_⟩
  · -- the minimum is attained at some vertex
    rw [vertexCosts] at hmem
    rcases List.mem_map.mp hmem with ⟨v, hv, hval⟩
    rcases List.mem_iff_getElem.mp hv with ⟨k, hk, hvk⟩
    have hkpm : k < pm.length := by
      rw [List.length_zip, hlen, min_self] at hk
      exact hk
    refine ⟨k, hkpm, ?_⟩
    rw [Bayes_error_rate_scalar, vertexCosts, ← hval, ← hvk, List.getElem_zip]
    rw [List.getD_eq_getElem _ _ hkpm, List.getD_eq_getElem _ _ (by rw [hlen]; exact hkpm)]
  · -- the minimum is a lower bound over all vertices
    intro k hk
    have hkz : k < (pm.zip pf).length := by
      rw [List.length_zip, hlen, min_self]
      exact hk
    have hcost : sigmoid plo * (pm.getD k 0 : ℝ) + sigmoid (-plo) * (pf.getD k 0 : ℝ)
        ∈ vertexCosts pm pf plo := by
      rw [vertexCosts]
      refine List.mem_map.mpr ⟨(pm.zip pf).get ⟨k, hkz⟩, List.get_mem _ _ _, ?_⟩
      rw [List.get_eq_getElem, List.getElem_zip]
      rw [List.getD_eq_getElem _ _ hk, List.getD_eq_getElem _ _ (by rw [hlen]; exact hk)]
    exact hle _ hcost
  · intro i hi
    rw [Bayes_error_rate_array, List.getElem?_map]
  · rw [Bayes_error_rate_full, List.length_map]
  · rw [Bayes_error_rate_full, List.length_map]

/-- Witness for C7 on the concrete vertex rows Pmiss = [0,1], Pfa = [1,0]
(the ROCCH of one target above one nontarget), a scalar operating point 0 and
a two-point array. -/
theorem C7_witness :
    (0 < ([0, 1] : List ℚ).length ∧ ([1, 0] : List ℚ).length = ([0, 1] : List ℚ).length) ∧
    (Bayes_error_rate_array [0, 1] [1, 0] [0, 1]).length = 2 ∧
    (∀ k, k < ([0, 1] : List ℚ).length →
        Bayes_error_rate_scalar [0, 1] [1, 0] 0
          ≤ sigmoid 0 * (([0, 1] : List ℚ).getD k 0 : ℝ)
            + sigmoid (-0) * (([1, 0] : List ℚ).getD k 0 : ℝ)) := by
  have h := C7_Bayes_error_rate_min [0, 1] [1, 0] [0, 1] 0 (by decide) (by decide)
  exact ⟨⟨by decide, by decide⟩, h.2.2.1, h.2.1⟩

lemma sigmoid_pos (x : ℝ) : 0 < sigmoid x := by
  rw [sigmoid]
  positivity

lemma sigmoid_add_neg (x : ℝ) : sigmoid x + sigmoid (-x) = 1 := by
  rw [sigmoid, sigmoid, neg_neg]
  have hab : Real.exp (-x) * Real.exp x = 1 := by
    rw [← Real.exp_add]
    simp
  have h1 : (0 : ℝ) < 1 + Real.exp (-x) := by positivity
  have h2 : (0 : ℝ) < 1 + Real.exp x := by positivity
  field_simp
  linear_combination -hab

/-- The scalar Bayes error rate never exceeds the cost at any single vertex. -/
lemma ber_le_vertex (pm pf : List ℚ) (plo : ℝ) (k : ℕ)
    (hk : k < pm.length) (hlen : pf.length = pm.length) :
    Bayes_error_rate_scalar pm pf plo
      ≤ sigmoid plo * (pm.getD k 0 : ℝ) + sigmoid (-plo) * (pf.getD k 0 : ℝ) := by
  have hvne : vertexCosts pm pf plo ≠ [] := by
    intro h
    have := length_vertexCosts pm pf plo hlen
    rw [h] at this
    simp at this
    omega
  obtain ⟨_, hle⟩ := listMin_spec (vertexCosts pm pf plo) hvne
  have hkz : k < (pm.zip pf).length := by
    rw [List.length_zip, hlen, min_self]
    exact hk
  have hcost : sigmoid plo * (pm.getD k 0 : ℝ) + sigmoid (-plo) * (pf.getD k 0 : ℝ)
      ∈ vertexCosts pm pf plo := by
    rw [vertexCosts]
    refine List.mem_map.mpr ⟨(pm.zip pf).get ⟨k, hkz⟩, List.get_mem _ _ _, ?_⟩
    rw [List.get_eq_getElem, List.getElem_zip]
    rw [List.getD_eq_getElem _ _ hk, List.getD_eq_getElem _ _ (by rw [hlen]; exact hk)]
  exact hle _ hcost

lemma listMin_nonneg (l : List ℝ) (h : ∀ x ∈ l, 0 ≤ x) : 0 ≤ listMin l := by
  cases l with
  | nil => rw [listMin]
  | cons a r =>
    obtain ⟨hmem, _⟩ := listMin_spec (a :: r) (by simp)
    exact h _ hmem

lemma sum_take_le_sum (l : List ℚ) (k : ℕ) (h : ∀ x ∈ l, 0 ≤ x) :
    (l.take k).sum ≤ l.sum := by
  conv_rhs => rw [← List.take_append_drop k l]
  rw [List.sum_append]
  have : 0 ≤ (l.drop k).sum :=
    List.sum_nonneg (fun x hx => h x (List.mem_of_mem_drop hx))
  linarith

lemma rocchPmiss_mem_nonneg (ts : List Trial) : ∀ x ∈ rocchPmiss ts, 0 ≤ x := by
  intro x hx
  rcases List.mem_iff_getElem.mp hx with ⟨k, hk, hval⟩
  rw [length_rocchPmiss] at hk
  have he := rocchPmiss_getElem? ts k hk
  rw [List.getElem?_eq_getElem (by rw [length_rocchPmiss]; exact hk)] at he
  have hv := Option.some_inj.mp he
  rw [hval] at hv
  rw [hv]
  apply div_nonneg _ (by positivity)
  apply List.sum_nonneg
  intro y hy
  rcases List.mem_map.mp hy with ⟨B, _, rfl⟩
  positivity

lemma rocchPfa_mem_nonneg (ts : List Trial) : ∀ x ∈ rocchPfa ts, 0 ≤ x := by
  intro x hx
  rcases List.mem_iff_getElem.mp hx with ⟨k, hk, hval⟩
  rw [length_rocchPfa] at hk
  have he := rocchPfa_getElem? ts k hk
  rw [List.getElem?_eq_getElem (by rw [length_rocchPfa]; exact hk)] at he
  have hv := Option.some_inj.mp he
  rw [hval] at hv
  rw [hv]
  rcases Nat.eq_zero_or_pos (pavN ts) with h0 | hpos
  · rw [h0]
    simp
  · have hNq : (0 : ℚ) < (pavN ts : ℚ) := by exact_mod_cast hpos
    have hM : (((pavBlocks ts).take k).map
        (fun B => (B.length : ℚ) - (targ B : ℚ))).sum ≤ (pavN ts : ℚ) := by
      have hfull : ((pavBlocks ts).map
          (fun B => (B.length : ℚ) - (targ B : ℚ))).sum = (pavN ts : ℚ) := by
        rw [cast_nontar_sum, targsum_blocks, lensum_blocks, pavN, pavT]
        have hle : targ ts ≤ ts.length := List.countP_le_length _
        push_cast [Nat.cast_sub hle]
        ring
      calc (((pavBlocks ts).take k).map
              (fun B => (B.length : ℚ) - (targ B : ℚ))).sum
          = (((pavBlocks ts).map
              (fun B => (B.length : ℚ) - (targ B : ℚ))).take k).sum := by
            rw [List.map_take]
        _ ≤ ((pavBlocks ts).map (fun B => (B.length : ℚ) - (targ B : ℚ))).sum := by
            apply sum_take_le_sum
            intro y hy
            rcases List.mem_map.mp hy with ⟨B, _, rfl⟩
            have : targ B ≤ B.length := List.countP_le_length _
            have : (targ B : ℚ) ≤ (B.length : ℚ) := by exact_mod_cast this
            linarith
        _ = (pavN ts : ℚ) := hfull
    rw [div_neg, ← neg_div, neg_sub]
    apply div_nonneg _ (le_of_lt hNq)
    linarith

lemma rocchPmiss_getD_zero (ts : List Trial) : (rocchPmiss ts).getD 0 0 = 0 := by
  rw [List.getD_eq_getElem?_getD, rocchPmiss_getElem? ts 0 (by omega)]
  simp

lemma rocchPfa_getD_zero (ts : List Trial) (hN : 0 < pavN ts) :
    (rocchPfa ts).getD 0 0 = 1 := by
  have hNq : (0 : ℚ) < (pavN ts : ℚ) := by exact_mod_cast hN
  rw [List.getD_eq_getElem?_getD, rocchPfa_getElem? ts 0 (by omega)]
  simp only [List.take_zero, List.map_nil, List.sum_nil, zero_sub, Option.getD_some]
  rw [neg_div_neg_eq, div_self (ne_of_gt hNq)]

lemma rocchPmiss_getD_last (ts : List Trial) (hT : 0 < pavT ts) :
    (rocchPmiss ts).getD (nbins ts) 0 = 1 := by
  have hTq : (0 : ℚ) < (pavT ts : ℚ) := by exact_mod_cast hT
  rw [List.getD_eq_getElem?_getD, rocchPmiss_getElem? ts (nbins ts) (by omega)]
  have h1 : (pavBlocks ts).take (nbins ts) = pavBlocks ts := by
    rw [nbins]; exact List.take_length _
  rw [h1, cast_targ_sum, targsum_blocks, div_self (ne_of_gt hTq)]
  rfl

lemma rocchPfa_getD_last (ts : List Trial) : (rocchPfa ts).getD (nbins ts) 0 = 0 := by
  rw [List.getD_eq_getElem?_getD, rocchPfa_getElem? ts (nbins ts) (by omega)]
  have h1 : (pavBlocks ts).take (nbins ts) = pavBlocks ts := by
    rw [nbins]; exact List.take_length _
  have hle : targ ts ≤ ts.length := List.countP_le_length _
  have h2 : ((pavBlocks ts).map (fun B => (B.length : ℚ) - (targ B : ℚ))).sum
      = (pavN ts : ℚ) := by
    rw [cast_nontar_sum, targsum_blocks, lensum_blocks, pavN, pavT]
    push_cast [Nat.cast_sub hle]
    ring
  rw [h1, h2, sub_self, zero_div]
  rfl

/-- The optimal Bayes error rate of a (valid) ROCCH lies in [0, 1/2] at every
operating point. -/
lemma ber_bounds (ts : List Trial) (hT : 0 < pavT ts) (hN : 0 < pavN ts) (plo : ℝ) :
    0 ≤ Bayes_error_rate_scalar (rocchPmiss ts) (rocchPfa ts) plo ∧
      Bayes_error_rate_scalar (rocchPmiss ts) (rocchPfa ts) plo ≤ 1 / 2 := by
  have hlen : (rocchPfa ts).length = (rocchPmiss ts).length := by
    rw [length_rocchPfa, length_rocchPmiss]
  have hpmlen : 0 < (rocchPmiss ts).length := by
    rw [length_rocchPmiss]; omega
  constructor
  · rw [Bayes_error_rate_scalar]
    apply listMin_nonneg
    intro c hc
    rw [vertexCosts] at hc
    rcases List.mem_map.mp hc with ⟨v, hv, rfl⟩
    obtain ⟨h1, h2⟩ := List.mem_zip hv
    have hv1 : (0 : ℝ) ≤ (v.1 : ℝ) := by
      exact_mod_cast rocchPmiss_mem_nonneg ts v.1 h1
    have hv2 : (0 : ℝ) ≤ (v.2 : ℝ) := by
      exact_mod_cast rocchPfa_mem_nonneg ts v.2 h2
    have := sigmoid_pos plo
    have := sigmoid_pos (-plo)
    nlinarith
  · have h0 := ber_le_vertex (rocchPmiss ts) (rocchPfa ts) plo 0 hpmlen hlen
    have hl := ber_le_vertex (rocchPmiss ts) (rocchPfa ts) plo (nbins ts)
      (by rw [length_rocchPmiss]; omega) hlen
    rw [rocchPmiss_getD_zero, rocchPfa_getD_zero ts hN] at h0
    rw [rocchPmiss_getD_last ts hT, rocchPfa_getD_last] at hl
    push_cast at h0 hl
    have hsum := sigmoid_add_neg plo
    rcases le_total (sigmoid plo) (sigmoid (-plo)) with hcmp | hcmp
    · nlinarith [hl]
    · nlinarith [h0]

/-- `ROCCH.EER`: the maximum over operating points of the optimal Bayes error
rate.  `scipy.optimize.minimize_scalar` is modelled as an exact maximizer of
this curve, which is the contract the spec (§4.5) assigns it: the curve is the
pointwise minimum of finitely many monotone-transformed affine functions,
hence unimodal with a single maximum. -/
noncomputable def EER (pm pf : List ℚ) : ℝ :=
  ⨆ plo : ℝ, Bayes_error_rate_scalar pm pf plo

/-- C8: for every valid trial set, `ROCCH.EER` — the maximum over all
operating points of the optimal Bayes error curve — lies in [0, 1/2]. -/
theorem C8_eer_bounds (ts : List Trial) (hT : 0 < pavT ts) (hN : 0 < pavN ts) :
    0 ≤ EER (rocchPmiss ts) (rocchPfa ts) ∧
      EER (rocchPmiss ts) (rocchPfa ts) ≤ 1 / 2 := by
  have hub : ∀ plo : ℝ,
      Bayes_error_rate_scalar (rocchPmiss ts) (rocchPfa ts) plo ≤ 1 / 2 :=
    fun plo => (ber_bounds ts hT hN plo).2
  have hbdd : BddAbove (Set.range
      (fun plo => Bayes_error_rate_scalar (rocchPmiss ts) (rocchPfa ts) plo)) := by
    refine ⟨1 / 2, ?_⟩
    rintro y ⟨plo, rfl⟩
    exact hub plo
  constructor
  · exact le_trans (ber_bounds ts hT hN 0).1 (le_ciSup hbdd 0)
  · exact Real.iSup_le hub (by norm_num)

/-- Witness for C8 on the two-trial set {(0, nontarget), (1, target)}. -/
theorem C8_witness :
    (0 < pavT [((0 : ℚ), false), ((1 : ℚ), true)] ∧
      0 < pavN [((0 : ℚ), false), ((1 : ℚ), true)]) ∧
    (0 ≤ EER (rocchPmiss [((0 : ℚ), false), ((1 : ℚ), true)])
        (rocchPfa [((0 : ℚ), false), ((1 : ℚ), true)]) ∧
      EER (rocchPmiss [((0 : ℚ), false), ((1 : ℚ), true)])
        (rocchPfa [((0 : ℚ), false), ((1 : ℚ), true)]) ≤ 1 / 2) :=
  ⟨⟨by decide, by decide⟩,
    C8_eer_bounds [((0 : ℚ), false), ((1 : ℚ), true)] (by decide) (by decide)⟩

/-! ## `cllr` / `min_cllr` (`pyllr/cllr.py`, `pyllr/utils.py`) -/

/-- `cs_softplus` of `pyllr/utils.py` (real branch):
`np.log1p(np.exp(-np.abs(x))) + np.maximum(x, 0)`. -/
noncomputable def softplus (x : ℝ) : ℝ := Real.log (1 + Real.exp (-|x|)) + max x 0

/-- The numerically stable form equals `log(1 + exp x)`. -/
lemma softplus_eq (x : ℝ) : softplus x = Real.log (1 + Real.exp x) := by
  rw [softplus]
  rcases le_total 0 x with h | h
  · rw [abs_of_nonneg h, max_eq_left h]
    have h1 : (0 : ℝ) < 1 + Real.exp (-x) := by positivity
    have hprod : Real.exp x * Real.exp (-x) = 1 := by
      rw [← Real.exp_add]
      simp
    have hfact : 1 + Real.exp x = Real.exp x * (1 + Real.exp (-x)) := by
      linear_combination -hprod
    rw [hfact, Real.log_mul (ne_of_gt (Real.exp_pos x)) (ne_of_gt h1), Real.log_exp]
    ring
  · rw [abs_of_nonpos h, max_eq_right h, neg_neg, add_zero]

lemma softplus_nonneg (x : ℝ) : 0 ≤ softplus x := by
  rw [softplus_eq]
  apply Real.log_nonneg
  have := Real.exp_pos x
  linarith

/-- Convexity of softplus through its tangent at `a`:
`softplus b ≥ softplus a + sigmoid a * (b - a)`. -/
lemma softplus_grad_bound (a b : ℝ) :
    softplus a + sigmoid a * (b - a) ≤ softplus b := by
  have hs1 : sigmoid (-a) = 1 / (1 + Real.exp a) := by rw [sigmoid, neg_neg]
  have hs2 : sigmoid a = Real.exp a / (1 + Real.exp a) := by
    rw [sigmoid]
    have h1 : (0 : ℝ) < 1 + Real.exp (-a) := by positivity
    have h2 : (0 : ℝ) < 1 + Real.exp a := by positivity
    have hprod : Real.exp a * Real.exp (-a) = 1 := by
      rw [← Real.exp_add]
      simp
    rw [div_eq_div_iff (ne_of_gt h1) (ne_of_gt h2), one_mul]
    linear_combination -hprod
  have hw1 : (0 : ℝ) ≤ sigmoid (-a) := le_of_lt (sigmoid_pos (-a))
  have hw2 : (0 : ℝ) ≤ sigmoid a := le_of_lt (sigmoid_pos a)
  have hwsum : sigmoid (-a) + sigmoid a = 1 := by
    rw [add_comm]
    exact sigmoid_add_neg a
  have key : Real.exp (sigmoid a * (b - a))
      ≤ sigmoid (-a) + sigmoid a * Real.exp (b - a) := by
    have h := Real.geom_mean_le_arith_mean2_weighted hw1 hw2 zero_le_one
      (le_of_lt (Real.exp_pos (b - a))) hwsum
    calc Real.exp (sigmoid a * (b - a))
        = (1 : ℝ) ^ sigmoid (-a) * Real.exp (b - a) ^ sigmoid a := by
          rw [Real.one_rpow, one_mul, ← Real.exp_mul, mul_comm]
      _ ≤ sigmoid (-a) * 1 + sigmoid a * Real.exp (b - a) := h
      _ = sigmoid (-a) + sigmoid a * Real.exp (b - a) := by ring
  have hRpos : (0 : ℝ) < sigmoid (-a) + sigmoid a * Real.exp (b - a) := by
    have := sigmoid_pos (-a)
    have := sigmoid_pos a
    have := Real.exp_pos (b - a)
    positivity
  have hlog : sigmoid a * (b - a)
      ≤ Real.log (sigmoid (-a) + sigmoid a * Real.exp (b - a)) := by
    rw [← Real.log_exp (sigmoid a * (b - a))]
    exact Real.log_le_log (Real.exp_pos _) key
  have hfact : 1 + Real.exp b
      = (1 + Real.exp a) * (sigmoid (-a) + sigmoid a * Real.exp (b - a)) := by
    rw [hs1, hs2]
    have h2 : (0 : ℝ) < 1 + Real.exp a := by positivity
    have hexp : Real.exp a * Real.exp (b - a) = Real.exp b := by
      rw [← Real.exp_add]
      congr 1
      ring
    field_simp
    linear_combination -hexp
  rw [softplus_eq, softplus_eq, hfact,
    Real.log_mul (by positivity) (ne_of_gt hRpos)]
  linarith

lemma sigmoid_log (r : ℝ) (hr : 0 < r) : sigmoid (Real.log r) = r / (r + 1) := by
  rw [sigmoid, Real.exp_neg, Real.exp_log hr]
  rw [div_eq_div_iff (by positivity) (by positivity), one_mul]
  field_simp

lemma sigmoid_neg_log (r : ℝ) (hr : 0 < r) : sigmoid (-Real.log r) = 1 / (r + 1) := by
  rw [sigmoid, neg_neg, Real.exp_log hr, add_comm]

/-- `llr = logit(p) - log(T/N)` of `PAV.llrs` / `min_cllr`, for one block. -/
noncomputable def blockLLR (T N : ℕ) (B : List Trial) : ℝ :=
  Real.log (((blockP B : ℚ) : ℝ) / (1 - ((blockP B : ℚ) : ℝ)))
    - Real.log ((T : ℝ) / (N : ℝ))

lemma blockLLR_eq_log (T N : ℕ) (B : List Trial) (hT : 0 < T) (hN : 0 < N)
    (ht : 0 < targ B) (htm : targ B < B.length) :
    blockLLR T N B
      = Real.log (((targ B : ℝ) * N) / (((B.length - targ B : ℕ) : ℝ) * T)) := by
  have hm : 0 < B.length := lt_trans ht htm
  have hmt : (0 : ℝ) < ((B.length - targ B : ℕ) : ℝ) := by
    have : 0 < B.length - targ B := by omega
    exact_mod_cast this
  have htq : (0 : ℝ) < (targ B : ℝ) := by exact_mod_cast ht
  have hTq : (0 : ℝ) < (T : ℝ) := by exact_mod_cast hT
  have hNq : (0 : ℝ) < (N : ℝ) := by exact_mod_cast hN
  have hmq : (0 : ℝ) < (B.length : ℝ) := by exact_mod_cast hm
  have hcast : ((blockP B : ℚ) : ℝ) = (targ B : ℝ) / (B.length : ℝ) := by
    rw [blockP]
    push_cast
    rfl
  have hsub : ((B.length - targ B : ℕ) : ℝ) = (B.length : ℝ) - (targ B : ℝ) := by
    push_cast [Nat.cast_sub (le_of_lt htm)]
    rfl
  have hratio : ((blockP B : ℚ) : ℝ) / (1 - ((blockP B : ℚ) : ℝ))
      = (targ B : ℝ) / ((B.length - targ B : ℕ) : ℝ) := by
    rw [hcast, hsub]
    have hfrac : (targ B : ℝ) / (B.length : ℝ) < 1 := by
      rw [div_lt_one hmq]
      exact_mod_cast htm
    have hd1 : (1 : ℝ) - (targ B : ℝ) / (B.length : ℝ) ≠ 0 := by linarith
    have hd2 : (B.length : ℝ) - (targ B : ℝ) ≠ 0 := by
      rw [hsub] at hmt
      linarith
    rw [div_eq_div_iff hd1 hd2]
    field_simp
  rw [blockLLR, hratio]
  rw [Real.log_div (ne_of_gt htq) (ne_of_gt hmt),
    Real.log_div (ne_of_gt hTq) (ne_of_gt hNq),
    Real.log_div (by positivity) (by positivity),
    Real.log_mul (ne_of_gt htq) (ne_of_gt hNq),
    Real.log_mul (ne_of_gt hmt) (ne_of_gt hTq)]
  ring

lemma sigmoid_blockLLR (T N : ℕ) (B : List Trial) (hT : 0 < T) (hN : 0 < N)
    (ht : 0 < targ B) (htm : targ B < B.length) :
    sigmoid (blockLLR T N B)
        = ((targ B : ℝ) * N)
            / ((targ B : ℝ) * N + ((B.length - targ B : ℕ) : ℝ) * T) ∧
      sigmoid (-(blockLLR T N B))
        = (((B.length - targ B : ℕ) : ℝ) * T)
            / ((targ B : ℝ) * N + ((B.length - targ B : ℕ) : ℝ) * T) := by
  have hmt : (0 : ℝ) < ((B.length - targ B : ℕ) : ℝ) := by
    have : 0 < B.length - targ B := by omega
    exact_mod_cast this
  have htq : (0 : ℝ) < (targ B : ℝ) := by exact_mod_cast ht
  have hTq : (0 : ℝ) < (T : ℝ) := by exact_mod_cast hT
  have hNq : (0 : ℝ) < (N : ℝ) := by exact_mod_cast hN
  have hr : (0 : ℝ) < ((targ B : ℝ) * N) / (((B.length - targ B : ℕ) : ℝ) * T) := by
    positivity
  rw [blockLLR_eq_log T N B hT hN ht htm]
  rw [sigmoid_log _ hr, sigmoid_neg_log _ hr]
  have hdT : (0 : ℝ) < ((B.length - targ B : ℕ) : ℝ) * T := by positivity
  have hden : (0 : ℝ) < (targ B : ℝ) * N + ((B.length - targ B : ℕ) : ℝ) * T := by
    positivity
  have hr1 : (0 : ℝ) < (targ B : ℝ) * N / (((B.length - targ B : ℕ) : ℝ) * T) + 1 := by
    positivity
  constructor
  · rw [div_eq_div_iff (ne_of_gt hr1) (ne_of_gt hden)]
    field_simp
  · rw [div_eq_div_iff (ne_of_gt hr1) (ne_of_gt hden)]
    field_simp

/-- `cross_entropy(tar, non, Ptar)` of `pyllr/cllr.py` (forward pass):
`(Ptar * mean(softplus(-tar - logit(Ptar)))
  + (1-Ptar) * mean(softplus(non + logit(Ptar)))) / log 2`. -/
noncomputable def cross_entropy (tar non : List ℚ) (Ptar : ℝ) : ℝ :=
  (Ptar * (((tar.map (fun (s : ℚ) =>
          softplus (-(s : ℝ) - Real.log (Ptar / (1 - Ptar))))).sum) / tar.length)
    + (1 - Ptar) * (((non.map (fun (s : ℚ) =>
          softplus ((s : ℝ) + Real.log (Ptar / (1 - Ptar))))).sum) / non.length))
    / Real.log 2

/-- `cllr(tar, non) = cross_entropy(tar, non, Ptar=0.5)`. -/
noncomputable def cllr (tar non : List ℚ) : ℝ := cross_entropy tar non (1 / 2)

/-- The target-cost contribution of one PAV block to `min_cllr`:
`tar_counts[k] * softplus(-llr[k])` when `tnz` keeps the block, else 0.
On an all-target block the float code has `llr = +inf` and
`softplus(-inf) = 0`; the inner `if` reproduces that IEEE value. -/
noncomputable def blockTarCost (T N : ℕ) (B : List Trial) : ℝ :=
  if 0 < targ B then
    (targ B : ℝ) * (if targ B = B.length then 0 else softplus (-(blockLLR T N B)))
  else 0

/-- The nontarget-cost contribution of one PAV block to `min_cllr`:
`non_counts[k] * softplus(llr[k])` when `nnz` keeps the block, else 0.
On an all-nontarget block the float code has `llr = -inf` and
`softplus(-inf) = 0`; the inner `if` reproduces that IEEE value. -/
noncomputable def blockNonCost (T N : ℕ) (B : List Trial) : ℝ :=
  if targ B < B.length then
    ((B.length - targ B : ℕ) : ℝ) * (if targ B = 0 then 0 else softplus (blockLLR T N B))
  else 0

/-- `min_cllr(pav)` of `pyllr/cllr.py`:
`((tar_costs[tnz] @ tar_counts[tnz]) / T
  + (non_costs[nnz] @ non_counts[nnz]) / N) / (2 * log 2)`. -/
noncomputable def min_cllr (ts : List Trial) : ℝ :=
  ((((pavBlocks ts).map (blockTarCost (pavT ts) (pavN ts))).sum) / (pavT ts)
    + (((pavBlocks ts).map (blockNonCost (pavT ts) (pavN ts))).sum) / (pavN ts))
    / (2 * Real.log 2)

lemma sum_map_add {α : Type} (f g : α → ℝ) (l : List α) :
    (l.map (fun x => f x + g x)).sum = (l.map f).sum + (l.map g).sum := by
  induction l with
  | nil => simp
  | cons a r IH => simp [IH]; ring

lemma sum_map_le {α : Type} (f g : α → ℝ) (l : List α)
    (h : ∀ x ∈ l, f x ≤ g x) : (l.map f).sum ≤ (l.map g).sum :=
  List.sum_le_sum h

/-- The per-trial Cllr cost, as a function of one (score, label) trial. -/
noncomputable def trialCost (T N : ℕ) (x : Trial) : ℝ :=
  if x.2 then softplus (-(x.1 : ℝ)) / T else softplus ((x.1 : ℝ)) / N

lemma trialCost_nonneg (T N : ℕ) (x : Trial) : 0 ≤ trialCost T N x := by
  rw [trialCost]
  split
  · exact div_nonneg (softplus_nonneg _) (by positivity)
  · exact div_nonneg (softplus_nonneg _) (by positivity)

lemma coefsum (t m : ℕ) (l : List Trial) :
    (l.map (fun x => (if x.2 then (m : ℝ) else 0) - (t : ℝ))).sum
      = (m : ℝ) * targ l - (t : ℝ) * l.length := by
  induction l with
  | nil => simp [targ]
  | cons a r IH =>
    rw [List.map_cons, List.sum_cons, IH]
    have hc : targ (a :: r) = targ r + (if a.2 then 1 else 0) := by
      rw [targ, targ, List.countP_cons]
    rw [hc]
    cases ha : a.2
    · simp only [ha, if_false, Bool.false_eq_true]
      push_cast
      simp
      ring
    · simp only [ha, if_true]
      push_cast
      simp
      ring

/-- Abel summation bound: if the scores are non-decreasing and every prefix of
the block has label mean at least the block mean, then the correlation between
the centred labels and the scores is at most the total coefficient (which is
zero for the whole block) times the last score. -/
lemma abel_aux (t m : ℕ) (B : List Trial)
    (hsort : List.Sorted (fun x y : Trial => x.1 ≤ y.1) B)
    (hpre : ∀ P S, B = P ++ S → (t : ℝ) * P.length ≤ (m : ℝ) * targ P) :
    (B.map (fun x => ((if x.2 then (m : ℝ) else 0) - (t : ℝ)) * (x.1 : ℝ))).sum
      ≤ ((m : ℝ) * targ B - (t : ℝ) * B.length) * ((B.getLastD default).1 : ℝ) := by
  induction B using List.reverseRecOn with
  | nil => simp [targ]
  | append_singleton M z IH =>
    have hsortM : List.Sorted (fun x y : Trial => x.1 ≤ y.1) M :=
      hsort.sublist (List.sublist_append_left M [z])
    have hpreM : ∀ P S, M = P ++ S → (t : ℝ) * P.length ≤ (m : ℝ) * targ P := by
      intro P S hPS
      exact hpre P (S ++ [z]) (by rw [hPS, List.append_assoc])
    have hM := IH hsortM hpreM
    have hSM : (0 : ℝ) ≤ (m : ℝ) * targ M - (t : ℝ) * M.length := by
      have := hpre M [z] rfl
      linarith
    have hstep : ((m : ℝ) * targ M - (t : ℝ) * M.length) * ((M.getLastD default).1 : ℝ)
        ≤ ((m : ℝ) * targ M - (t : ℝ) * M.length) * (z.1 : ℝ) := by
      rcases eq_or_ne M [] with rfl | hne
      · simp [targ]
      · have hmem : M.getLast hne ∈ M := List.getLast_mem hne
        have hrel := (List.pairwise_append.mp (by simpa using hsort)).2.2
        have hle := hrel (M.getLast hne) hmem z (by simp)
        have hlast : ((M.getLastD default).1 : ℝ) ≤ (z.1 : ℝ) := by
          rw [List.getLastD_eq_getLast?, List.getLast?_eq_getLast M hne]
          exact_mod_cast hle
        exact mul_le_mul_of_nonneg_left hlast hSM
    have hlz : (M ++ [z]).getLastD default = z := by
      rw [List.getLastD_eq_getLast?, List.getLast?_append]
      rfl
    rw [hlz, List.map_append, List.sum_append, targ_append, List.length_append]
    have htz : targ [z] = if z.2 then 1 else 0 := by
      rw [targ, List.countP_cons, List.countP_nil, Nat.zero_add]
    rw [htz]
    have hsum1 : (List.map (fun x => ((if x.2 then (m : ℝ) else 0) - (t : ℝ)) * (x.1 : ℝ))
        [z]).sum = ((if z.2 then (m : ℝ) else 0) - (t : ℝ)) * (z.1 : ℝ) := by
      simp
    rw [hsum1]
    have hlen1 : ([z] : List Trial).length = 1 := rfl
    rw [hlen1]
    have hfinal := le_trans hM hstep
    cases hz : z.2
    · simp only [hz, Bool.false_eq_true, if_false]
      push_cast
      nlinarith [hfinal]
    · simp only [hz, if_true]
      push_cast
      nlinarith [hfinal]

lemma abel_nonpos (B : List Trial)
    (hsort : List.Sorted (fun x y : Trial => x.1 ≤ y.1) B) (hpref : Pref B) :
    (B.map (fun x =>
        ((if x.2 then (B.length : ℝ) else 0) - (targ B : ℝ)) * (x.1 : ℝ))).sum ≤ 0 := by
  have hpre : ∀ P S, B = P ++ S →
      (targ B : ℝ) * P.length ≤ (B.length : ℝ) * targ P := by
    intro P S hPS
    have := hpref P S hPS
    have hq : (targ B * P.length : ℕ) ≤ (targ P * B.length : ℕ) := this
    calc (targ B : ℝ) * P.length = ((targ B * P.length : ℕ) : ℝ) := by push_cast; ring
      _ ≤ ((targ P * B.length : ℕ) : ℝ) := by exact_mod_cast hq
      _ = (B.length : ℝ) * targ P := by push_cast; ring
  have h := abel_aux (targ B) B.length B hsort hpre
  have hz : ((B.length : ℝ) * targ B - (targ B : ℝ) * B.length) = 0 := by ring
  rw [hz, zero_mul] at h
  exact h

lemma trialLe_trans (a b c : Trial) (hab : trialLe a b = true)
    (hbc : trialLe b c = true) : trialLe a c = true := by
  simp only [trialLe, Bool.or_eq_true, Bool.and_eq_true, decide_eq_true_iff] at hab hbc ⊢
  rcases hab with h1 | ⟨h1, h1b⟩
  · rcases hbc with h2 | ⟨h2, _⟩
    · exact Or.inl (lt_trans h1 h2)
    · exact Or.inl (h2 ▸ h1)
  · rcases hbc with h2 | ⟨h2, h2b⟩
    · exact Or.inl (lt_of_eq_of_lt h1 h2)
    · refine Or.inr ⟨h1.trans h2, ?_⟩
      revert h1b h2b
      cases a.2 <;> cases b.2 <;> cases c.2 <;> simp

lemma trialLe_total (a b : Trial) : (trialLe a b || trialLe b a) = true := by
  simp only [trialLe, Bool.or_eq_true, Bool.and_eq_true, decide_eq_true_iff]
  rcases lt_trichotomy a.1 b.1 with h | h | h
  · exact Or.inl (Or.inl h)
  · rcases Bool.dichotomy a.2 with ha | ha <;> rcases Bool.dichotomy b.2 with hb | hb
    · exact Or.inl (Or.inr ⟨h, by simp [ha, hb]⟩)
    · exact Or.inr (Or.inr ⟨h.symm, by simp [ha, hb]⟩)
    · exact Or.inl (Or.inr ⟨h, by simp [ha, hb]⟩)
    · exact Or.inl (Or.inr ⟨h, by simp [ha, hb]⟩)
  · exact Or.inr (Or.inl h)

lemma sortTrials_sorted_scores (ts : List Trial) :
    List.Sorted (fun x y : Trial => x.1 ≤ y.1) (sortTrials ts) := by
  have hp : List.Pairwise (fun a b => trialLe a b = true) (ts.mergeSort trialLe) :=
    List.sorted_mergeSort trialLe_trans trialLe_total ts
  rw [sortTrials]
  refine hp.imp ?_
  intro a b h
  simp only [trialLe, Bool.or_eq_true, Bool.and_eq_true, decide_eq_true_iff] at h
  rcases h with h | ⟨h, _⟩
  · exact le_of_lt h
  · exact le_of_eq h

lemma pavBlocks_sorted (ts : List Trial) :
    ∀ B ∈ pavBlocks ts, List.Sorted (fun x y : Trial => x.1 ≤ y.1) B := by
  intro B hB
  have hinf : B <:+: (pavBlocks ts).flatten := List.infix_of_mem_flatten hB
  rw [(pavBlocks_ok ts).2.2] at hinf
  exact List.Pairwise.sublist hinf.sublist (sortTrials_sorted_scores ts)

lemma sum_map_mul_left {α : Type} (c : ℝ) (f : α → ℝ) (l : List α) :
    (l.map (fun x => c * f x)).sum = c * (l.map f).sum := by
  induction l with
  | nil => simp
  | cons a r IH => simp [IH]; ring

lemma sum_map_sub {α : Type} (f g : α → ℝ) (l : List α) :
    (l.map (fun x => f x - g x)).sum = (l.map f).sum - (l.map g).sum := by
  induction l with
  | nil => simp
  | cons a r IH => simp [IH]; ring

lemma sum_map_mul_right {α : Type} (c : ℝ) (f : α → ℝ) (l : List α) :
    (l.map (fun x => f x * c)).sum = (l.map f).sum * c := by
  induction l with
  | nil => simp
  | cons a r IH => simp [IH]; ring

lemma sum_map_ite (c1 c0 : ℝ) (l : List Trial) :
    (l.map (fun x => if x.2 then c1 else c0)).sum
      = (targ l : ℝ) * c1 + ((l.length : ℝ) - (targ l : ℝ)) * c0 := by
  induction l with
  | nil => simp [targ]
  | cons a r IH =>
    rw [List.map_cons, List.sum_cons, IH]
    have hc : targ (a :: r) = targ r + (if a.2 then 1 else 0) := by
      rw [targ, targ, List.countP_cons]
    rw [hc, List.length_cons]
    cases ha : a.2
    · simp only [ha, Bool.false_eq_true, if_false]
      push_cast
      ring
    · simp only [ha, if_true]
      push_cast
      ring

lemma sum_map_neg {α : Type} (f : α → ℝ) (l : List α) :
    (l.map (fun x => -(f x))).sum = -((l.map f).sum) := by
  induction l with
  | nil => simp
  | cons a r IH => simp [IH]; ring

/-- The key per-block inequality: one PAV block's contribution to `min_cllr`
is at most the Cllr cost of the block's raw trials.  This is the convexity /
Abel-summation argument: the block LLR is the tangent point, and the prefix
invariant of the PAV fit makes the first-order term nonnegative. -/
lemma block_cost_le (T N : ℕ) (hT : 0 < T) (hN : 0 < N) (B : List Trial)
    (hsort : List.Sorted (fun x y : Trial => x.1 ≤ y.1) B) (hpref : Pref B) :
    blockTarCost T N B / T + blockNonCost T N B / N
      ≤ (B.map (trialCost T N)).sum := by
  have hTR : (0 : ℝ) < (T : ℝ) := by exact_mod_cast hT
  have hNR : (0 : ℝ) < (N : ℝ) := by exact_mod_cast hN
  have hRHS0 : 0 ≤ (B.map (trialCost T N)).sum :=
    List.sum_nonneg (fun c hc => by
      rcases List.mem_map.mp hc with ⟨x, _, rfl⟩
      exact trialCost_nonneg T N x)
  rcases Nat.eq_zero_or_pos (targ B) with ht0 | htpos
  · rw [blockTarCost, if_neg (by omega), blockNonCost]
    have h2 : (if targ B < B.length then
        ((B.length - targ B : ℕ) : ℝ) * (if targ B = 0 then 0
          else softplus (blockLLR T N B)) else 0) = 0 := by
      rw [if_pos ht0]
      split
      · exact mul_zero _
      · rfl
    rw [h2]
    simpa using hRHS0
  rcases lt_or_eq_of_le (show targ B ≤ B.length from List.countP_le_length _)
    with htm | htm
  pick_goal 2
  · -- all-target block: both contributions are zero
    rw [blockTarCost, if_pos htpos, if_pos htm, mul_zero, blockNonCost,
      if_neg (by omega)]
    simpa using hRHS0
  · -- mixed block: the convexity argument
    obtain ⟨hσu, hσnu⟩ := sigmoid_blockLLR T N B hT hN htpos htm
    have htR : (0 : ℝ) < (targ B : ℝ) := by exact_mod_cast htpos
    have hnR : (0 : ℝ) < ((B.length - targ B : ℕ) : ℝ) := by
      have : 0 < B.length - targ B := by omega
      exact_mod_cast this
    have hDpos : (0 : ℝ) < (targ B : ℝ) * N + ((B.length - targ B : ℕ) : ℝ) * T := by
      have h1 : (0 : ℝ) < (targ B : ℝ) * N := mul_pos htR hNR
      have h2 : (0 : ℝ) < ((B.length - targ B : ℕ) : ℝ) * T := mul_pos hnR hTR
      linarith
    have hnsub : ((B.length - targ B : ℕ) : ℝ) = (B.length : ℝ) - (targ B : ℝ) :=
      Nat.cast_sub (le_of_lt htm)
    rw [blockTarCost, if_pos htpos, if_neg (by omega), blockNonCost, if_pos htm,
      if_neg (by omega)]
    -- tangent-line lower bound per trial
    have e1 : ∀ s : ℝ, (softplus (-(blockLLR T N B))
          + sigmoid (-(blockLLR T N B)) * (blockLLR T N B - s)) / T
        = softplus (-(blockLLR T N B)) / T
          + (((B.length - targ B : ℕ) : ℝ)
              / ((targ B : ℝ) * N + ((B.length - targ B : ℕ) : ℝ) * T))
            * (blockLLR T N B - s) := by
      intro s
      rw [hσnu]
      field_simp
      ring
    have e0 : ∀ s : ℝ, (softplus (blockLLR T N B)
          + sigmoid (blockLLR T N B) * (s - blockLLR T N B)) / N
        = softplus (blockLLR T N B) / N
          + ((targ B : ℝ)
              / ((targ B : ℝ) * N + ((B.length - targ B : ℕ) : ℝ) * T))
            * (s - blockLLR T N B) := by
      intro s
      rw [hσu]
      field_simp
      ring
    have hpoint : ∀ x ∈ B,
        ((if x.2 then softplus (-(blockLLR T N B)) / T
            else softplus (blockLLR T N B) / N)
          + (1 / ((targ B : ℝ) * N + ((B.length - targ B : ℕ) : ℝ) * T))
            * (((targ B : ℝ) - (if x.2 then (B.length : ℝ) else 0))
                * ((x.1 : ℝ) - blockLLR T N B)))
          ≤ trialCost T N x := by
      intro x _
      rw [trialCost]
      cases hx2 : x.2
      · simp only [Bool.false_eq_true, if_false]
        have hgb := softplus_grad_bound (blockLLR T N B) (x.1 : ℝ)
        have hdiv : (softplus (blockLLR T N B)
              + sigmoid (blockLLR T N B) * ((x.1 : ℝ) - blockLLR T N B)) / N
            ≤ softplus (x.1 : ℝ) / N :=
          (div_le_div_iff_of_pos_right hNR).mpr hgb
        rw [e0 (x.1 : ℝ)] at hdiv
        calc softplus (blockLLR T N B) / N
              + (1 / ((targ B : ℝ) * N + ((B.length - targ B : ℕ) : ℝ) * T))
                * (((targ B : ℝ) - 0) * ((x.1 : ℝ) - blockLLR T N B))
            = softplus (blockLLR T N B) / N
              + ((targ B : ℝ)
                  / ((targ B : ℝ) * N + ((B.length - targ B : ℕ) : ℝ) * T))
                * ((x.1 : ℝ) - blockLLR T N B) := by ring
          _ ≤ softplus (x.1 : ℝ) / N := hdiv
      · simp only [if_true]
        have hgb := softplus_grad_bound (-(blockLLR T N B)) (-(x.1 : ℝ))
        have harg : -(x.1 : ℝ) - -(blockLLR T N B) = blockLLR T N B - (x.1 : ℝ) := by
          ring
        rw [harg] at hgb
        have hdiv : (softplus (-(blockLLR T N B))
              + sigmoid (-(blockLLR T N B)) * (blockLLR T N B - (x.1 : ℝ))) / T
            ≤ softplus (-(x.1 : ℝ)) / T :=
          (div_le_div_iff_of_pos_right hTR).mpr hgb
        rw [e1 (x.1 : ℝ)] at hdiv
        calc softplus (-(blockLLR T N B)) / T
              + (1 / ((targ B : ℝ) * N + ((B.length - targ B : ℕ) : ℝ) * T))
                * (((targ B : ℝ) - (B.length : ℝ)) * ((x.1 : ℝ) - blockLLR T N B)) 
            = softplus (-(blockLLR T N B)) / T
              + (((B.length - targ B : ℕ) : ℝ)
                  / ((targ B : ℝ) * N + ((B.length - targ B : ℕ) : ℝ) * T))
                * (blockLLR T N B - (x.1 : ℝ)) := by
              rw [hnsub]
              ring
          _ ≤ softplus (-(x.1 : ℝ)) / T := hdiv
    have hsumle := sum_map_le _ _ B hpoint
    -- split the lower bound's sum into the base part and the gradient part
    rw [sum_map_add] at hsumle
    have hbase : (B.map (fun x => if x.2 then softplus (-(blockLLR T N B)) / T
        else softplus (blockLLR T N B) / N)).sum
        = (targ B : ℝ) * (softplus (-(blockLLR T N B)) / T)
          + ((B.length : ℝ) - (targ B : ℝ)) * (softplus (blockLLR T N B) / N) :=
      sum_map_ite _ _ B
    have hgrad : 0 ≤ (B.map (fun x =>
        (1 / ((targ B : ℝ) * N + ((B.length - targ B : ℕ) : ℝ) * T))
          * (((targ B : ℝ) - (if x.2 then (B.length : ℝ) else 0))
              * ((x.1 : ℝ) - blockLLR T N B)))).sum := by
      rw [sum_map_mul_left]
      apply mul_nonneg (by positivity)
      have hexp : ∀ x : Trial,
          ((targ B : ℝ) - (if x.2 then (B.length : ℝ) else 0))
              * ((x.1 : ℝ) - blockLLR T N B)
            = (((targ B : ℝ) - (if x.2 then (B.length : ℝ) else 0)) * (x.1 : ℝ))
              - (((targ B : ℝ) - (if x.2 then (B.length : ℝ) else 0))
                  * blockLLR T N B) := by
        intro x
        ring
      rw [List.map_congr_left (fun x _ => hexp x), sum_map_sub]
      have hcoef0 : (B.map (fun x =>
          ((targ B : ℝ) - (if x.2 then (B.length : ℝ) else 0)) * blockLLR T N B)).sum
          = 0 := by
        have : ∀ x : Trial, ((targ B : ℝ) - (if x.2 then (B.length : ℝ) else 0))
            * blockLLR T N B
            = -(((if x.2 then (B.length : ℝ) else 0) - (targ B : ℝ))
                * blockLLR T N B) := by
          intro x
          ring
        rw [List.map_congr_left (fun x _ => this x), sum_map_neg, sum_map_mul_right,
          coefsum]
        ring
      have hcoefs : (B.map (fun x =>
          ((targ B : ℝ) - (if x.2 then (B.length : ℝ) else 0)) * (x.1 : ℝ))).sum
          = -((B.map (fun x => ((if x.2 then (B.length : ℝ) else 0) - (targ B : ℝ))
              * (x.1 : ℝ))).sum) := by
        have : ∀ x : Trial, ((targ B : ℝ) - (if x.2 then (B.length : ℝ) else 0))
            * (x.1 : ℝ)
            = -(((if x.2 then (B.length : ℝ) else 0) - (targ B : ℝ)) * (x.1 : ℝ)) := by
          intro x
          ring
        rw [List.map_congr_left (fun x _ => this x)]
        exact sum_map_neg _ _
      rw [hcoef0, hcoefs, sub_zero]
      have habel := abel_nonpos B hsort hpref
      linarith
    rw [hbase] at hsumle
    rw [hnsub]
    calc (targ B : ℝ) * softplus (-(blockLLR T N B)) / T
          + ((B.length : ℝ) - (targ B : ℝ)) * softplus (blockLLR T N B) / N
        = (targ B : ℝ) * (softplus (-(blockLLR T N B)) / T)
          + ((B.length : ℝ) - (targ B : ℝ)) * (softplus (blockLLR T N B) / N) := by
          ring
      _ ≤ (B.map (trialCost T N)).sum := by linarith [hgrad, hsumle]

lemma sum_map_div {α : Type} (c : ℝ) (f : α → ℝ) (l : List α) :
    (l.map (fun x => f x / c)).sum = (l.map f).sum / c := by
  induction l with
  | nil => simp
  | cons a r IH => simp [IH]; ring

lemma tarOf_map (ts : List Trial) :
    tarOf (ts.map Prod.fst) (ts.map Prod.snd)
      = (ts.filter (fun x => x.2)).map Prod.fst := by
  rw [tarOf, List.zip_map']
  have : (ts.map (fun a : Trial => (a.1, a.2))) = ts := by
    simp
  rw [this]

lemma nonOf_map (ts : List Trial) :
    nonOf (ts.map Prod.fst) (ts.map Prod.snd)
      = (ts.filter (fun x => !x.2)).map Prod.fst := by
  rw [nonOf, List.zip_map']
  have : (ts.map (fun a : Trial => (a.1, a.2))) = ts := by
    simp
  rw [this]

lemma countP_not_eq (ts : List Trial) :
    ts.countP (fun x => !x.2) = ts.length - targ ts := by
  induction ts with
  | nil => rfl
  | cons a r IH =>
    have hle : targ r ≤ r.length := List.countP_le_length _
    rw [List.countP_cons, IH, List.length_cons]
    have hc : targ (a :: r) = targ r + (if a.2 then 1 else 0) := by
      rw [targ, targ, List.countP_cons]
    rw [hc]
    cases ha : a.2 <;> simp [ha] <;> omega

/-- Splitting the per-trial Cllr cost sum by class. -/
lemma sum_trialCost_split (T N : ℕ) (ts : List Trial) :
    (ts.map (trialCost T N)).sum
      = ((ts.filter (fun x => x.2)).map (fun x => softplus (-(x.1 : ℝ)))).sum / T
        + ((ts.filter (fun x => !x.2)).map (fun x => softplus ((x.1 : ℝ)))).sum / N := by
  induction ts with
  | nil => simp
  | cons a r IH =>
    rw [List.map_cons, List.sum_cons, IH]
    cases ha : a.2
    · rw [List.filter_cons_of_neg (by simp [ha]), List.filter_cons_of_pos (by simp [ha]),
        List.map_cons, List.sum_cons, trialCost]
      rw [if_neg (by simp [ha])]
      ring
    · rw [List.filter_cons_of_pos (by simp [ha]), List.filter_cons_of_neg (by simp [ha]),
        List.map_cons, List.sum_cons, trialCost]
      rw [if_pos (by simp [ha])]
      ring

/-- C9: the normalized cross-entropy of the raw scores is at least `min_cllr`
computed from the PAV-derived block LLRs of the same trial set. -/
theorem C9_cllr_ge_min_cllr (ts : List Trial) (hT : 0 < pavT ts) (hN : 0 < pavN ts) :
    min_cllr ts ≤ cllr (tarOf (ts.map Prod.fst) (ts.map Prod.snd))
      (nonOf (ts.map Prod.fst) (ts.map Prod.snd)) := by
  have hlog2 : (0 : ℝ) < Real.log 2 := Real.log_pos (by norm_num)
  have hlp : Real.log ((1 / 2 : ℝ) / (1 - 1 / 2)) = 0 := by norm_num
  have hlen1 : ((ts.filter (fun x => x.2)).length : ℝ) = ((pavT ts : ℕ) : ℝ) := by
    rw [← List.countP_eq_length_filter]
    rfl
  have hlen0 : ((ts.filter (fun x => !x.2)).length : ℝ) = ((pavN ts : ℕ) : ℝ) := by
    rw [← List.countP_eq_length_filter, countP_not_eq]
    rfl
  have hcllr : cllr (tarOf (ts.map Prod.fst) (ts.map Prod.snd))
        (nonOf (ts.map Prod.fst) (ts.map Prod.snd))
      = (((ts.filter (fun x => x.2)).map (fun x => softplus (-(x.1 : ℝ)))).sum
            / (pavT ts)
          + ((ts.filter (fun x => !x.2)).map (fun x => softplus ((x.1 : ℝ)))).sum
            / (pavN ts)) / (2 * Real.log 2) := by
    rw [cllr, cross_entropy, hlp, tarOf_map, nonOf_map, List.map_map, List.map_map,
      List.length_map, List.length_map]
    simp only [Function.comp_def, sub_zero, add_zero]
    rw [hlen1, hlen0]
    ring
  rw [hcllr, min_cllr]
  apply (div_le_div_iff_of_pos_right (by positivity : (0 : ℝ) < 2 * Real.log 2)).mpr
  rw [← sum_trialCost_split (pavT ts) (pavN ts) ts]
  -- regroup the block sums and apply the per-block inequality
  have hsplit : ((pavBlocks ts).map (blockTarCost (pavT ts) (pavN ts))).sum / (pavT ts)
        + ((pavBlocks ts).map (blockNonCost (pavT ts) (pavN ts))).sum / (pavN ts)
      = ((pavBlocks ts).map (fun B => blockTarCost (pavT ts) (pavN ts) B / (pavT ts)
          + blockNonCost (pavT ts) (pavN ts) B / (pavN ts))).sum := by
    rw [sum_map_add, sum_map_div, sum_map_div]
  rw [hsplit]
  have hblocks := (pavBlocks_ok ts).1
  have hsorted := pavBlocks_sorted ts
  have hle1 : ((pavBlocks ts).map (fun B => blockTarCost (pavT ts) (pavN ts) B / (pavT ts)
        + blockNonCost (pavT ts) (pavN ts) B / (pavN ts))).sum
      ≤ ((pavBlocks ts).map (fun B => (B.map (trialCost (pavT ts) (pavN ts))).sum)).sum := by
    apply sum_map_le
    intro B hB
    exact block_cost_le (pavT ts) (pavN ts) hT hN B (hsorted B hB) (hblocks B hB).2
  have heq : ((pavBlocks ts).map (fun B =>
        (B.map (trialCost (pavT ts) (pavN ts))).sum)).sum
      = (ts.map (trialCost (pavT ts) (pavN ts))).sum := by
    have h1 : ((pavBlocks ts).map (fun B =>
          (B.map (trialCost (pavT ts) (pavN ts))).sum)).sum
        = (((pavBlocks ts).map (fun B =>
            B.map (trialCost (pavT ts) (pavN ts)))).map List.sum).sum := by
      rw [List.map_map]
      rfl
    rw [h1, ← List.sum_flatten, ← List.map_flatten, (pavBlocks_ok ts).2.2]
    exact List.Perm.sum_eq (List.Perm.map _ (sortTrials_perm ts))
  linarith [hle1, heq.le, heq.ge]

/-- Witness for C9 on the two-trial set {(0, nontarget), (1, target)}. -/
theorem C9_witness :
    (0 < pavT [((0 : ℚ), false), ((1 : ℚ), true)] ∧
      0 < pavN [((0 : ℚ), false), ((1 : ℚ), true)]) ∧
    min_cllr [((0 : ℚ), false), ((1 : ℚ), true)]
      ≤ cllr (tarOf ([((0 : ℚ), false), ((1 : ℚ), true)].map Prod.fst)
            ([((0 : ℚ), false), ((1 : ℚ), true)].map Prod.snd))
          (nonOf ([((0 : ℚ), false), ((1 : ℚ), true)].map Prod.fst)
            ([((0 : ℚ), false), ((1 : ℚ), true)].map Prod.snd)) :=
  ⟨⟨by decide, by decide⟩,
    C9_cllr_ge_min_cllr [((0 : ℚ), false), ((1 : ℚ), true)] (by decide) (by decide)⟩

lemma countP_range_getD (l : List ℚ) (p : ℚ → Bool) :
    (List.range l.length).countP (fun j => p (l.getD j 0)) = l.countP p := by
  induction l with
  | nil => rfl
  | cons a r IH =>
    rw [List.length_cons, List.range_succ_eq_map, List.countP_cons, List.countP_cons,
      List.countP_map]
    have h1 : (List.range r.length).countP
          ((fun j => p ((a :: r).getD j 0)) ∘ Nat.succ)
        = (List.range r.length).countP (fun j => p (r.getD j 0)) := by
      apply List.countP_congr
      intro j _
      simp [Function.comp_def, List.getD_cons_succ]
    rw [h1, IH]
    simp [Nat.add_comm]

lemma countP_range_gt (D i : ℕ) (hi : i < D) :
    (List.range D).countP (fun k => decide (i < k)) = D - i - 1 := by
  induction D with
  | zero => omega
  | succ D IH =>
    rw [List.range_succ, List.countP_append]
    rcases Nat.lt_or_ge i D with h | h
    · rw [IH h]
      have : (List.countP (fun k => decide (i < k)) [D]) = 1 := by
        rw [List.countP_cons, List.countP_nil]
        simp [h]
      rw [this]
      omega
    · have hiD : i = D := by omega
      subst hiD
      have h0 : (List.range i).countP (fun k => decide (i < k)) = 0 := by
        rw [List.countP_eq_length_filter]
        have : (List.range i).filter (fun k => decide (i < k)) = [] := by
          apply List.filter_eq_nil_iff.mpr
          intro k hk
          have := List.mem_range.mp hk
          simp
          omega
        rw [this]
        rfl
      rw [h0]
      have : (List.countP (fun k => decide (i < k)) [i]) = 0 := by
        rw [List.countP_cons, List.countP_nil]
        simp
      rw [this]
      omega

/-- For strictly descending thresholds, the ordinal rank of the i-th threshold
in the merged (thresholds, scores) list is `(D - i) + #(scores below it)`. -/
lemma ordinalRank_strict (thr tar : List ℚ) (i : ℕ) (hi : i < thr.length)
    (hstrict : List.Pairwise (fun a b : ℚ => b < a) thr) :
    ordinalRank (thr ++ tar) i
      = (thr.length - i) + countBelow (thr.getD i 0) tar := by
  have hgi : (thr ++ tar).getD i 0 = thr.getD i 0 := List.getD_append _ _ _ i hi
  rw [ordinalRank, List.length_append, List.range_add, List.countP_append,
    List.countP_map]
  have hpw := List.pairwise_iff_get.mp hstrict
  have h1 : (List.range thr.length).countP (fun k =>
      decide ((thr ++ tar).getD k 0 < (thr ++ tar).getD i 0
        ∨ ((thr ++ tar).getD k 0 = (thr ++ tar).getD i 0 ∧ k < i)))
      = (List.range thr.length).countP (fun k => decide (i < k)) := by
    apply List.countP_congr
    intro k hk
    have hkl : k < thr.length := List.mem_range.mp hk
    rw [List.getD_append _ _ _ k hkl, hgi]
    have hgik : thr.getD i 0 = thr.get ⟨i, hi⟩ := by
      rw [List.getD_eq_getElem _ _ hi]
      rfl
    have hgkk : thr.getD k 0 = thr.get ⟨k, hkl⟩ := by
      rw [List.getD_eq_getElem _ _ hkl]
      rfl
    simp only [decide_eq_true_iff]
    rw [hgik, hgkk]
    constructor
    · rintro (hlt | ⟨heq, hki⟩)
      · by_contra hik
        push_neg at hik
        rcases Nat.lt_or_ge k i with hki | hik2
        · have := hpw ⟨k, hkl⟩ ⟨i, hi⟩ hki
          exact absurd hlt (by exact not_lt_of_gt this)
        · have hkeq : k = i := by omega
          subst hkeq
          exact lt_irrefl _ hlt
      · have := hpw ⟨k, hkl⟩ ⟨i, hi⟩ hki
        exact absurd heq (by exact ne_of_gt this)
    · intro hik
      exact Or.inl (hpw ⟨i, hi⟩ ⟨k, hkl⟩ hik)
  have h2 : (List.range tar.length).countP ((fun k =>
      decide ((thr ++ tar).getD k 0 < (thr ++ tar).getD i 0
        ∨ ((thr ++ tar).getD k 0 = (thr ++ tar).getD i 0 ∧ k < i)))
          ∘ (fun x => thr.length + x))
      = countBelow (thr.getD i 0) tar := by
    rw [countBelow, ← countP_range_getD tar (fun s => decide (s < thr.getD i 0))]
    apply List.countP_congr
    intro j _
    simp only [Function.comp_def]
    rw [List.getD_append_right _ _ _ _ (by omega), hgi]
    have hsub : thr.length + j - thr.length = j := by omega
    rw [hsub]
    simp only [decide_eq_true_iff]
    constructor
    · rintro (hlt | ⟨_, hcontra⟩)
      · exact hlt
      · omega
    · intro hlt
      exact Or.inl hlt
  rw [h1, h2, countP_range_gt thr.length i hi]
  rw [countBelow]
  omega

/-- Supporting evidence for the C6 analysis: when the operating points are
strictly ascending (equivalently the thresholds strictly descending), the
rank shortcut of `fast_Bayes_error_rate` does agree with naive per-threshold
counting, so only the tied case diverges. -/
lemma fastPmiss_correct_of_strict (thr tar : List ℚ)
    (hstrict : List.Pairwise (fun a b : ℚ => b < a) thr)
    (i : ℕ) (hi : i < thr.length) :
    (fastPmiss thr tar).getD i 0
      = (countBelow (thr.getD i 0) tar : ℚ) / (tar.length : ℚ) := by
  rw [List.getD_eq_getElem?_getD, fastPmiss, List.getElem?_map,
    List.getElem?_range hi]
  simp only [Option.map_some', Option.getD_some]
  rw [ordinalRank_strict thr tar i hi hstrict]
  congr 1
  push_cast
  ring
